import Mathlib

/-!
Verification of the CSE pass in `projects/p2/C++/p2.cpp`.

The development shallowly embeds the pass: LLVM IR is modelled by lists of
instructions grouped into basic blocks and functions; machine pointers
(`Value*`, `Type*`) become numeric identities (`Nat`), and pointer equality
becomes equality of those identities.  Each C++ function of the pass
(`isDead`, `isValidForCSE`, `sameBBScan`, `domBBScan`, `eliminateLoad`,
`eliminateStore`, `CommonSubexpressionElimination`, `summarize`, `main`) is
translated into an executable Lean function of the same name; the scan
helpers are written as recursions over the list of instructions that the
corresponding C++ iterator walks, threading through the rest of the function
body so that `replaceAllUsesWith` (modelled by `rauw*`) can rewrite every
user, exactly as the linked `Use` lists do in LLVM.
-/

namespace P2

/-- The instruction opcodes the program inspects: the full trivially-dead set
enumerated in `isDead`, the memory/call opcodes, and the terminators. -/
inductive Opcode where
  | Add | FNeg | FAdd | Sub | FSub | Mul | FMul | UDiv | SDiv | FDiv
  | URem | SRem | FRem | Shl | LShr | AShr | And | Or | Xor
  | GetElementPtr | Trunc | ZExt | SExt | FPToUI | FPToSI | UIToFP | SIToFP
  | FPTrunc | FPExt | PtrToInt | IntToPtr | BitCast | AddrSpaceCast
  | ICmp | FCmp | PHI | Select
  | ExtractElement | InsertElement | ShuffleVector | ExtractValue | InsertValue
  | Load | Store | Alloca | VAArg | Call
  | Ret | Br | Switch | IndirectBr | Unreachable
deriving DecidableEq

/-- `Instruction::isTerminator()`. -/
def Opcode.isTerminator : Opcode → Bool
  | .Ret | .Br | .Switch | .IndirectBr | .Unreachable => true
  | _ => false

/-- A reference to an SSA value (`Value*`): its identity and its type
(`Value::getType()`, itself a pointer identity). -/
structure Val where
  id : Nat
  ty : Nat
deriving DecidableEq

/-- An instruction: its own identity (it is a `Value`), opcode, result type,
ordered operand references, volatility flag (meaningful for memory ops) and
the remaining opcode-specific flags that `isIdenticalTo` compares. -/
structure Instr where
  id : Nat
  opcode : Opcode
  ty : Nat
  operands : List Val
  isVolatile : Bool
  flags : Nat
deriving DecidableEq

/-- `I.getOperand(k)` (total, with a dummy value outside the range). -/
def opnd (I : Instr) (k : Nat) : Val := I.operands.getD k ⟨0, 0⟩

/-- The `Value` an instruction defines. -/
def valOf (I : Instr) : Val := ⟨I.id, I.ty⟩

/-- A basic block: its instruction list and the indices of its CFG successor
blocks (taken from its terminator; the pass never modifies them). -/
structure BB where
  insts : List Instr
  succs : List Nat
deriving DecidableEq

/-- A function: an ordered sequence of basic blocks (entry first). -/
structure Func where
  blocks : List BB
deriving DecidableEq

/-- A module: an ordered sequence of functions. -/
abbrev IRModule := List Func

/-- The six statistics counters bumped by the pass. -/
structure Counters where
  cseDead : Nat
  cseSimplify : Nat
  cseElim : Nat
  cseLdElim : Nat
  cseStore2Load : Nat
  cseStElim : Nat
deriving DecidableEq

def czero : Counters := ⟨0, 0, 0, 0, 0, 0⟩

def cntSum (c : Counters) : Nat :=
  c.cseDead + c.cseSimplify + c.cseElim + c.cseLdElim + c.cseStore2Load + c.cseStElim

/-- `Instruction::isIdenticalTo`: same opcode, same result type, same operand
references, and the same special state (volatility, other flags). -/
def identicalTo (a b : Instr) : Bool :=
  decide (a.opcode = b.opcode ∧ a.ty = b.ty ∧ a.operands = b.operands ∧
          a.isVolatile = b.isVolatile ∧ a.flags = b.flags)

/-- `Instruction::mayHaveSideEffects()` for the modelled opcodes, following
LLVM (`mayWriteToMemory || mayThrow`): stores, calls and `va_arg` write
memory, a load does iff it is volatile, and every other modelled opcode
(arithmetic, casts, compares, phi, select, aggregate ops, alloca, branches,
returns) has no side effects. -/
def mayHaveSideEffects (I : Instr) : Bool :=
  match I.opcode with
  | .Store | .Call | .VAArg => true
  | .Load => I.isVolatile
  | _ => false

/-- The switch in `isDead` (p2.cpp lines 186-242): the trivially-dead-safe
opcode set. -/
def trivDeadOpcode : Opcode → Bool
  | .Add | .FNeg | .FAdd | .Sub | .FSub | .Mul | .FMul | .UDiv | .SDiv | .FDiv
  | .URem | .SRem | .FRem | .Shl | .LShr | .AShr | .And | .Or | .Xor
  | .GetElementPtr | .Trunc | .ZExt | .SExt | .FPToUI | .FPToSI | .UIToFP
  | .SIToFP | .FPTrunc | .FPExt | .PtrToInt | .IntToPtr | .BitCast
  | .AddrSpaceCast | .ICmp | .FCmp | .PHI | .Select
  | .ExtractElement | .InsertElement | .ShuffleVector
  | .ExtractValue | .InsertValue => true
  | _ => false

/-- `isDead` (p2.cpp lines 178-246).  The C++ reads the use list through the
instruction; here the emptiness of that use list is computed by the caller
(the driver scans the whole function) and passed in. -/
def isDead (usesEmpty : Bool) (I : Instr) : Bool :=
  if usesEmpty then trivDeadOpcode I.opcode else false

/-- `isValidForCSE` (p2.cpp lines 310-322). -/
def isValidForCSE (I : Instr) : Bool :=
  if I.opcode = .Load ∨ I.opcode = .Store ∨ I.opcode = .FCmp ∨
     I.opcode = .Alloca ∨ I.opcode = .VAArg ∨ I.opcode = .Call ∨
     I.opcode.isTerminator = true
  then false else true

/-! `Value::replaceAllUsesWith`: rewrite every operand slot that refers to
the erased value `old` so that it refers to `nv` instead. -/

def rauwVal (old : Nat) (nv : Val) (v : Val) : Val := if v.id = old then nv else v

def rauwI (old : Nat) (nv : Val) (I : Instr) : Instr :=
  { I with operands := I.operands.map (rauwVal old nv) }

def rauwL (old : Nat) (nv : Val) (l : List Instr) : List Instr := l.map (rauwI old nv)

def rauwB (old : Nat) (nv : Val) (b : BB) : BB := { b with insts := rauwL old nv b.insts }

def rauwBs (old : Nat) (nv : Val) (bs : List BB) : List BB := bs.map (rauwB old nv)

/-- Does value `v` occur as an operand somewhere in `l`? -/
def hasUseIn (v : Nat) (l : List Instr) : Bool :=
  l.any (fun J => J.operands.any (fun o => o.id = v))

def hasUseBs (v : Nat) (bs : List BB) : Bool := bs.any (fun b => hasUseIn v b.insts)

/-!  The dominator tree service.

Modelled from the spec: the source calls LLVM's external
`DominatorTreeBase::recalculate` / `getNode`, whose code is not part of this
repository.  Section 4.1 and the glossary of the spec define the service: a
block `A` dominates `B` iff every path from the entry block to `B` passes
through `A`; `A` immediately dominates `B` iff `A` strictly dominates `B` and
every other strict dominator of `B` dominates `A`; the tree node of a block
has as children the blocks it immediately dominates.  The functions below
compute dominator sets by the standard iterative fixpoint over the CFG
(`cfg` maps a block index to its successor indices) and read the immediate
dominator off the dominator sets. -/

def cfgSuccs (cfg : List (List Nat)) (b : Nat) : List Nat := cfg.getD b []

def cfgPreds (cfg : List (List Nat)) (b : Nat) : List Nat :=
  (List.range cfg.length).filter (fun p => (cfgSuccs cfg p).contains b)

def reachStep (cfg : List (List Nat)) (r : List Nat) : List Nat :=
  (List.range cfg.length).filter
    (fun b => r.contains b || r.any (fun p => (cfgSuccs cfg p).contains b))

def reachIter (cfg : List (List Nat)) : Nat → List Nat
  | 0 => [0]
  | k + 1 => reachStep cfg (reachIter cfg k)

/-- Block indices reachable from the entry block (index 0). -/
def reachable (cfg : List (List Nat)) : List Nat := reachIter cfg cfg.length

def domInit (cfg : List (List Nat)) : List (List Nat) :=
  (List.range cfg.length).map
    (fun b => if b = 0 then [0] else List.range cfg.length)

def domStep (cfg : List (List Nat)) (d : List (List Nat)) : List (List Nat) :=
  (List.range cfg.length).map
    (fun b =>
      if b = 0 then [0]
      else
        b :: (List.range cfg.length).filter
          (fun x => x ≠ b ∧ (cfgPreds cfg b).all (fun p => (d.getD p []).contains x)))

def domFix (cfg : List (List Nat)) : Nat → List (List Nat)
  | 0 => domInit cfg
  | k + 1 => domStep cfg (domFix cfg k)

/-- The dominator sets of all blocks (the fixpoint is reached well within
`n * n + n + 1` rounds for a CFG with `n` blocks). -/
def domSets (cfg : List (List Nat)) : List (List Nat) :=
  domFix cfg (cfg.length * cfg.length + cfg.length + 1)

def strictDoms (cfg : List (List Nat)) (b : Nat) : List Nat :=
  ((domSets cfg).getD b []).filter (fun d => d ≠ b)

/-- The immediate dominator of a reachable non-entry block: the strict
dominator that is dominated by every other strict dominator. -/
def idomOf (cfg : List (List Nat)) (b : Nat) : Option Nat :=
  if b = 0 ∨ ¬ (reachable cfg).contains b then none
  else
    (strictDoms cfg b).find?
      (fun d => (strictDoms cfg b).all (fun e => ((domSets cfg).getD d []).contains e))

/-- The children of block `i` in the dominator tree: the blocks it
immediately dominates. -/
def domChildren (cfg : List (List Nat)) (i : Nat) : List Nat :=
  (List.range cfg.length).filter (fun b => idomOf cfg b = some i)

/-!  The scan helpers.

Each C++ scan walks a linked instruction list with an iterator, possibly
erasing the visited node after redirecting its uses.  Here a scan consumes
the not-yet-visited instructions (`rest`), accumulates the surviving visited
ones (`acc`, in order), and threads through every other instruction of the
function — the already processed prefix of the current block (`done`), the
instructions after the scan region (`tailC`, used by the dominated-block
scan), and the other blocks (`blocks`) — so that each `replaceAllUsesWith`
rewrites all of them, as it does in LLVM.  `SRes` collects the outcome. -/

structure SRes where
  cur : Instr
  kept : List Instr
  stop : List Instr := []
  tailC : List Instr := []
  done : List Instr
  blocks : List BB
  nPrim : Nat := 0
  nSec : Nat := 0
  killed : Bool := false
deriving DecidableEq

/-- `sameBBScan` (p2.cpp lines 333-353): walk the rest of the current block;
every instruction identical to the current one has its uses redirected to
the current one and is erased, bumping the counter. -/
def sameBBGo (cur : Instr) (acc rest done : List Instr) (blocks : List BB)
    (n : Nat) : SRes :=
  match rest with
  | [] => { cur := cur, kept := acc, done := done, blocks := blocks, nPrim := n }
  | h :: t =>
    if identicalTo h cur then
      sameBBGo (rauwI h.id (valOf cur) cur) (rauwL h.id (valOf cur) acc)
        (rauwL h.id (valOf cur) t) (rauwL h.id (valOf cur) done)
        (rauwBs h.id (valOf cur) blocks) (n + 1)
    else
      sameBBGo cur (acc ++ [h]) t done blocks n
termination_by rest.length
decreasing_by
  · simp [rauwL]
  · simp

/-- The inner loop of `domBBScan` (p2.cpp lines 378-389): scan one dominated
block for instructions identical to the current one.  `tailC` is the part of
the current block after the current instruction; it is a bystander that only
receives use-rewrites. -/
def domScanGo (cur : Instr) (acc rest tailC done : List Instr) (blocks : List BB)
    (n : Nat) : SRes :=
  match rest with
  | [] => { cur := cur, kept := acc, tailC := tailC, done := done,
            blocks := blocks, nPrim := n }
  | h :: t =>
    if identicalTo h cur then
      domScanGo (rauwI h.id (valOf cur) cur) (rauwL h.id (valOf cur) acc)
        (rauwL h.id (valOf cur) t) (rauwL h.id (valOf cur) tailC)
        (rauwL h.id (valOf cur) done) (rauwBs h.id (valOf cur) blocks) (n + 1)
    else
      domScanGo cur (acc ++ [h]) t tailC done blocks n
termination_by rest.length
decreasing_by
  · simp [rauwL]
  · simp

/-- The outer loop of `domBBScan` (p2.cpp lines 375-390): visit each block
the dominator-tree node of the current block immediately dominates, and run
the identical-instruction scan inside it. -/
def domChildrenGo (cur : Instr) (cs : List Nat) (tailC done : List Instr)
    (blocks : List BB) (n : Nat) : SRes :=
  match cs with
  | [] => { cur := cur, kept := [], tailC := tailC, done := done,
            blocks := blocks, nPrim := n }
  | c :: cs' =>
    match blocks[c]? with
    | none => domChildrenGo cur cs' tailC done blocks n
    | some b =>
      domChildrenGo (domScanGo cur [] b.insts tailC done blocks n).cur cs'
        (domScanGo cur [] b.insts tailC done blocks n).tailC
        (domScanGo cur [] b.insts tailC done blocks n).done
        ((domScanGo cur [] b.insts tailC done blocks n).blocks.set c
          { insts := (domScanGo cur [] b.insts tailC done blocks n).kept,
            succs := b.succs })
        (domScanGo cur [] b.insts tailC done blocks n).nPrim

/-- `eliminateLoad` (p2.cpp lines 403-434): walk forward from the current
load; a later non-volatile load with the same pointer operand and the same
result type is redirected to the current load and erased; any store stops
the scan; everything else is passed over. -/
def elimLoadGo (cur : Instr) (acc rest done : List Instr) (blocks : List BB)
    (n : Nat) : SRes :=
  match rest with
  | [] => { cur := cur, kept := acc, done := done, blocks := blocks, nPrim := n }
  | h :: t =>
    if h.opcode = .Load ∧ h.isVolatile = false ∧ opnd h 0 = opnd cur 0 ∧
       h.ty = cur.ty then
      elimLoadGo (rauwI h.id (valOf cur) cur) (rauwL h.id (valOf cur) acc)
        (rauwL h.id (valOf cur) t) (rauwL h.id (valOf cur) done)
        (rauwBs h.id (valOf cur) blocks) (n + 1)
    else if h.opcode = .Store then
      { cur := cur, kept := acc, stop := h :: t, done := done,
        blocks := blocks, nPrim := n }
    else
      elimLoadGo cur (acc ++ [h]) t done blocks n
termination_by rest.length
decreasing_by
  · simp [rauwL]
  · simp

/-- `eliminateStore` (p2.cpp lines 448-504): walk forward from the current
store.  A later non-volatile load of the stored-to pointer whose type equals
the stored value's type is forwarded (uses redirected to the stored value)
and erased; a later store to the same pointer storing a value of the same
type kills the current (non-volatile) store, which stops the scan with
`killed` set (the driver's cursor then stays on the successor); any other
load, store, call or side-effecting instruction stops the scan. -/
def elimStoreGo (cur : Instr) (acc rest done : List Instr) (blocks : List BB)
    (n : Nat) : SRes :=
  match rest with
  | [] => { cur := cur, kept := acc, done := done, blocks := blocks, nPrim := n }
  | h :: t =>
    if h.opcode = .Load ∧ h.isVolatile = false ∧ opnd h 0 = opnd cur 1 ∧
       h.ty = (opnd cur 0).ty then
      elimStoreGo (rauwI h.id (opnd cur 0) cur) (rauwL h.id (opnd cur 0) acc)
        (rauwL h.id (opnd cur 0) t) (rauwL h.id (opnd cur 0) done)
        (rauwBs h.id (opnd cur 0) blocks) (n + 1)
    else if h.opcode = .Store ∧ opnd h 1 = opnd cur 1 ∧ cur.isVolatile = false ∧
            (opnd h 0).ty = (opnd cur 0).ty then
      { cur := cur, kept := acc, stop := h :: t, done := done,
        blocks := blocks, nPrim := n, nSec := 1, killed := true }
    else if h.opcode = .Load ∨ h.opcode = .Store ∨ h.opcode = .Call ∨
            mayHaveSideEffects h = true then
      { cur := cur, kept := acc, stop := h :: t, done := done,
        blocks := blocks, nPrim := n }
    else
      elimStoreGo cur (acc ++ [h]) t done blocks n
termination_by rest.length
decreasing_by
  · simp [rauwL]
  · simp

/-- The outcome of one iteration of the driver's innermost loop. -/
structure DRes where
  rest : List Instr
  done : List Instr
  blocks : List BB
  cnt : Counters
deriving DecidableEq

/-- `sameBBScan` followed by `domBBScan` (p2.cpp lines 281-286), guarded by
`isValidForCSE`.  The dominator tree is computed afresh from the CFG, as
`domBBScan` recomputes it at every call (the CFG never changes, so the
freshly recomputed tree is the same one each time). -/
def r3Step (cfg : List (List Nat)) (bi : Nat) (cur : Instr)
    (tail done : List Instr) (blocks : List BB) : SRes :=
  if isValidForCSE cur then
    ({ cur := (domChildrenGo (sameBBGo cur [] tail done blocks 0).cur
          (domChildren cfg bi) (sameBBGo cur [] tail done blocks 0).kept
          (sameBBGo cur [] tail done blocks 0).done
          (sameBBGo cur [] tail done blocks 0).blocks
          (sameBBGo cur [] tail done blocks 0).nPrim).cur,
       kept := (domChildrenGo (sameBBGo cur [] tail done blocks 0).cur
          (domChildren cfg bi) (sameBBGo cur [] tail done blocks 0).kept
          (sameBBGo cur [] tail done blocks 0).done
          (sameBBGo cur [] tail done blocks 0).blocks
          (sameBBGo cur [] tail done blocks 0).nPrim).tailC,
       done := (domChildrenGo (sameBBGo cur [] tail done blocks 0).cur
          (domChildren cfg bi) (sameBBGo cur [] tail done blocks 0).kept
          (sameBBGo cur [] tail done blocks 0).done
          (sameBBGo cur [] tail done blocks 0).blocks
          (sameBBGo cur [] tail done blocks 0).nPrim).done,
       blocks := (domChildrenGo (sameBBGo cur [] tail done blocks 0).cur
          (domChildren cfg bi) (sameBBGo cur [] tail done blocks 0).kept
          (sameBBGo cur [] tail done blocks 0).done
          (sameBBGo cur [] tail done blocks 0).blocks
          (sameBBGo cur [] tail done blocks 0).nPrim).blocks,
       nPrim := (domChildrenGo (sameBBGo cur [] tail done blocks 0).cur
          (domChildren cfg bi) (sameBBGo cur [] tail done blocks 0).kept
          (sameBBGo cur [] tail done blocks 0).done
          (sameBBGo cur [] tail done blocks 0).blocks
          (sameBBGo cur [] tail done blocks 0).nPrim).nPrim } : SRes)
  else
    { cur := cur, kept := tail, done := done, blocks := blocks, nPrim := 0 }

/-- `eliminateLoad` dispatch (p2.cpp lines 288-290). -/
def r4Step (cur : Instr) (tail done : List Instr) (blocks : List BB) : SRes :=
  if cur.opcode = .Load then
    elimLoadGo cur [] tail done blocks 0
  else
    { cur := cur, kept := tail, done := done, blocks := blocks }

/-- One iteration of the instruction loop of `CommonSubexpressionElimination`
(p2.cpp lines 256-298) at instruction `cur`.  `simpF` is the external
`SimplifyInstruction` collaborator (a pure function that either offers a
replacement value or declines); `cfg` is the function's CFG and `bi` the
index of the current block (the current block's slot in `blocks` is kept
empty while its instructions are processed). -/
def driveStep (simpF : Instr → Option Val) (cfg : List (List Nat)) (bi : Nat)
    (cur : Instr) (tail done : List Instr) (blocks : List BB)
    (cnt : Counters) : DRes :=
  if isDead (!(hasUseIn cur.id (done ++ cur :: tail) || hasUseBs cur.id blocks)) cur then
    { rest := tail, done := done, blocks := blocks,
      cnt := { cnt with cseDead := cnt.cseDead + 1 } }
  else
    match simpF cur with
    | some v =>
      { rest := rauwL cur.id v tail, done := rauwL cur.id v done,
        blocks := rauwBs cur.id v blocks,
        cnt := { cnt with cseSimplify := cnt.cseSimplify + 1 } }
    | none =>
      let s1 := r3Step cfg bi cur tail done blocks
      let cnt1 := { cnt with cseElim := cnt.cseElim + s1.nPrim }
      let s2 := r4Step s1.cur s1.kept s1.done s1.blocks
      let cnt2 := { cnt1 with cseLdElim := cnt1.cseLdElim + s2.nPrim }
      if s2.cur.opcode = .Store then
        let r := elimStoreGo s2.cur [] (s2.kept ++ s2.stop) s2.done s2.blocks 0
        let cnt3 := { cnt2 with cseStore2Load := cnt2.cseStore2Load + r.nPrim,
                                cseStElim := cnt2.cseStElim + r.nSec }
        if r.killed then
          { rest := r.kept ++ r.stop, done := r.done, blocks := r.blocks, cnt := cnt3 }
        else
          { rest := r.kept ++ r.stop, done := r.done ++ [r.cur], blocks := r.blocks,
            cnt := cnt3 }
      else
        { rest := s2.kept ++ s2.stop, done := s2.done ++ [s2.cur],
          blocks := s2.blocks, cnt := cnt2 }

/-! Instruction counts, and conservation lemmas showing that every counter
bump of a scan erases exactly one instruction.  These feed the termination
argument of the driver loop and the two-run counter bound. -/

/-- The per-block instruction counts of a block list. -/
def bLens (bs : List BB) : List Nat := bs.map (fun b => b.insts.length)

def sizeBs (bs : List BB) : Nat := (bLens bs).sum

def sizeF (f : Func) : Nat := sizeBs f.blocks

def sizeM (m : IRModule) : Nat := (m.map sizeF).sum

@[simp] theorem rauwL_length (o : Nat) (v : Val) (l : List Instr) :
    (rauwL o v l).length = l.length := by simp [rauwL]

@[simp] theorem rauwBs_length (o : Nat) (v : Val) (bs : List BB) :
    (rauwBs o v bs).length = bs.length := by simp [rauwBs]

@[simp] theorem bLens_rauwBs (o : Nat) (v : Val) (bs : List BB) :
    bLens (rauwBs o v bs) = bLens bs := by
  induction bs with
  | nil => rfl
  | cons b bs ih => simp_all [bLens, rauwBs, rauwB, rauwL]

@[simp] theorem sizeBs_rauwBs (o : Nat) (v : Val) (bs : List BB) :
    sizeBs (rauwBs o v bs) = sizeBs bs := by simp [sizeBs]

theorem bLens_length (bs : List BB) : (bLens bs).length = bs.length := by
  simp [bLens]

theorem bLens_set (bs : List BB) (c : Nat) (nb : BB) :
    bLens (bs.set c nb) = (bLens bs).set c nb.insts.length := by
  induction bs generalizing c with
  | nil => rfl
  | cons x xs ih =>
    cases c with
    | zero => simp [bLens]
    | succ c' =>
      have := ih c'
      simp only [List.set, bLens, List.map] at this ⊢
      rw [this]

theorem sum_set_nat (l : List Nat) (c x y : Nat) (h : l[c]? = some x) :
    (l.set c y).sum + x = l.sum + y := by
  induction l generalizing c with
  | nil => simp at h
  | cons a as ih =>
    cases c with
    | zero =>
      simp only [List.getElem?_cons_zero, Option.some.injEq] at h
      simp [h]; omega
    | succ c' =>
      simp only [List.getElem?_cons_succ] at h
      have := ih c' h
      simp [List.set]; omega

theorem sizeBs_set (bs : List BB) (c : Nat) (nb b : BB) (h : bs[c]? = some b) :
    sizeBs (bs.set c nb) + b.insts.length = sizeBs bs + nb.insts.length := by
  have hx : (bLens bs)[c]? = some b.insts.length := by
    simp [bLens, List.getElem?_map, h]
  simpa [sizeBs, bLens_set] using sum_set_nat (bLens bs) c _ nb.insts.length hx

theorem sameBBGo_spec (cur : Instr) (acc rest done : List Instr)
    (blocks : List BB) (n : Nat) :
    (sameBBGo cur acc rest done blocks n).kept.length +
        (sameBBGo cur acc rest done blocks n).nPrim =
      acc.length + rest.length + n ∧
    (sameBBGo cur acc rest done blocks n).done.length = done.length ∧
    bLens (sameBBGo cur acc rest done blocks n).blocks = bLens blocks ∧
    (sameBBGo cur acc rest done blocks n).stop = [] := by
  induction cur, acc, rest, done, blocks, n using sameBBGo.induct with
  | case1 => simp [sameBBGo]
  | case2 cur acc done blocks n h t hid ih =>
    rw [sameBBGo, if_pos hid]
    simp only [rauwL_length, bLens_rauwBs] at ih
    obtain ⟨i1, i2, i3, i4⟩ := ih
    exact ⟨by simp only [List.length_cons, List.length_append, List.length_nil] at i1 ⊢ <;> omega, i2, i3, i4⟩
  | case3 cur acc done blocks n h t hid ih =>
    rw [sameBBGo, if_neg hid]
    obtain ⟨i1, i2, i3, i4⟩ := ih
    exact ⟨by simp only [List.length_cons, List.length_append, List.length_nil] at i1 ⊢ <;> omega, i2, i3, i4⟩

theorem domScanGo_spec (cur : Instr) (acc rest tailC done : List Instr)
    (blocks : List BB) (n : Nat) :
    (domScanGo cur acc rest tailC done blocks n).kept.length +
        (domScanGo cur acc rest tailC done blocks n).nPrim =
      acc.length + rest.length + n ∧
    (domScanGo cur acc rest tailC done blocks n).tailC.length = tailC.length ∧
    (domScanGo cur acc rest tailC done blocks n).done.length = done.length ∧
    bLens (domScanGo cur acc rest tailC done blocks n).blocks = bLens blocks := by
  induction cur, acc, rest, tailC, done, blocks, n using domScanGo.induct with
  | case1 => simp [domScanGo]
  | case2 cur acc tailC done blocks n h t hid ih =>
    rw [domScanGo, if_pos hid]
    simp only [rauwL_length, bLens_rauwBs] at ih
    obtain ⟨i1, i2, i3, i4⟩ := ih
    exact ⟨by simp only [List.length_cons, List.length_append, List.length_nil] at i1 ⊢ <;> omega, i2, i3, i4⟩
  | case3 cur acc tailC done blocks n h t hid ih =>
    rw [domScanGo, if_neg hid]
    obtain ⟨i1, i2, i3, i4⟩ := ih
    exact ⟨by simp only [List.length_cons, List.length_append, List.length_nil] at i1 ⊢ <;> omega, i2, i3, i4⟩

theorem domChildrenGo_spec (cur : Instr) (cs : List Nat) (tailC done : List Instr)
    (blocks : List BB) (n : Nat) :
    (domChildrenGo cur cs tailC done blocks n).tailC.length = tailC.length ∧
    (domChildrenGo cur cs tailC done blocks n).done.length = done.length ∧
    sizeBs (domChildrenGo cur cs tailC done blocks n).blocks +
        (domChildrenGo cur cs tailC done blocks n).nPrim =
      sizeBs blocks + n ∧
    (domChildrenGo cur cs tailC done blocks n).blocks.length = blocks.length := by
  induction cs generalizing cur tailC done blocks n with
  | nil => simp [domChildrenGo]
  | cons c cs' ih =>
    cases hsome : blocks[c]? with
    | none =>
      rw [domChildrenGo]
      simp only [hsome]
      exact ih cur tailC done blocks n
    | some b =>
      rw [domChildrenGo]
      simp only [hsome]
      obtain ⟨d1, d2, d3, d4⟩ := domScanGo_spec cur [] b.insts tailC done blocks n
      set r := domScanGo cur [] b.insts tailC done blocks n with hr
      obtain ⟨i1, i2, i3, i4⟩ := ih r.cur r.tailC r.done
        (r.blocks.set c { insts := r.kept, succs := b.succs }) r.nPrim
      refine ⟨by rw [i1, d2], by rw [i2, d3], ?_, ?_⟩
      · have hgl : (bLens r.blocks)[c]? = some b.insts.length := by
          rw [d4]
          simp [bLens, List.getElem?_map, hsome]
        have hset := sum_set_nat (bLens r.blocks) c b.insts.length
          ({ insts := r.kept, succs := b.succs } : BB).insts.length hgl
        have hsz : sizeBs (r.blocks.set c { insts := r.kept, succs := b.succs }) +
            b.insts.length = sizeBs r.blocks + r.kept.length := by
          simpa [sizeBs, bLens_set] using hset
        have hszr : sizeBs r.blocks = sizeBs blocks := by
          simp [sizeBs, d4]
        simp only [List.length_nil, Nat.zero_add] at d1
        omega
      · have hbl : (bLens r.blocks).length = (bLens blocks).length := by rw [d4]
        simp only [bLens_length] at hbl
        simpa [hbl] using i4

theorem elimLoadGo_spec (cur : Instr) (acc rest done : List Instr)
    (blocks : List BB) (n : Nat) :
    (elimLoadGo cur acc rest done blocks n).kept.length +
        (elimLoadGo cur acc rest done blocks n).stop.length +
        (elimLoadGo cur acc rest done blocks n).nPrim =
      acc.length + rest.length + n ∧
    (elimLoadGo cur acc rest done blocks n).done.length = done.length ∧
    bLens (elimLoadGo cur acc rest done blocks n).blocks = bLens blocks := by
  induction cur, acc, rest, done, blocks, n using elimLoadGo.induct with
  | case1 => simp [elimLoadGo]
  | case2 cur acc done blocks n h t hc ih =>
    rw [elimLoadGo, if_pos hc]
    simp only [rauwL_length, bLens_rauwBs] at ih
    obtain ⟨i1, i2, i3⟩ := ih
    exact ⟨by simp only [List.length_cons, List.length_append, List.length_nil] at i1 ⊢ <;> omega,
           i2, i3⟩
  | case3 cur acc done blocks n h t hc1 hc2 =>
    rw [elimLoadGo, if_neg hc1, if_pos hc2]
    exact ⟨rfl, rfl, rfl⟩
  | case4 cur acc done blocks n h t hc1 hc2 ih =>
    rw [elimLoadGo, if_neg hc1, if_neg hc2]
    obtain ⟨i1, i2, i3⟩ := ih
    exact ⟨by simp only [List.length_cons, List.length_append, List.length_nil] at i1 ⊢ <;> omega,
           i2, i3⟩

theorem elimStoreGo_spec (cur : Instr) (acc rest done : List Instr)
    (blocks : List BB) (n : Nat) :
    (elimStoreGo cur acc rest done blocks n).kept.length +
        (elimStoreGo cur acc rest done blocks n).stop.length +
        (elimStoreGo cur acc rest done blocks n).nPrim =
      acc.length + rest.length + n ∧
    (elimStoreGo cur acc rest done blocks n).done.length = done.length ∧
    bLens (elimStoreGo cur acc rest done blocks n).blocks = bLens blocks ∧
    (elimStoreGo cur acc rest done blocks n).nSec =
      (if (elimStoreGo cur acc rest done blocks n).killed then 1 else 0) := by
  induction cur, acc, rest, done, blocks, n using elimStoreGo.induct with
  | case1 => simp [elimStoreGo]
  | case2 cur acc done blocks n h t hc ih =>
    rw [elimStoreGo, if_pos hc]
    simp only [rauwL_length, bLens_rauwBs] at ih
    obtain ⟨i1, i2, i3, i4⟩ := ih
    exact ⟨by simp only [List.length_cons, List.length_append, List.length_nil] at i1 ⊢ <;> omega,
           i2, i3, i4⟩
  | case3 cur acc done blocks n h t hc1 hc2 =>
    rw [elimStoreGo, if_neg hc1, if_pos hc2]
    exact ⟨rfl, rfl, rfl, rfl⟩
  | case4 cur acc done blocks n h t hc1 hc2 hc3 =>
    rw [elimStoreGo, if_neg hc1, if_neg hc2, if_pos hc3]
    exact ⟨rfl, rfl, rfl, rfl⟩
  | case5 cur acc done blocks n h t hc1 hc2 hc3 ih =>
    rw [elimStoreGo, if_neg hc1, if_neg hc2, if_neg hc3]
    obtain ⟨i1, i2, i3, i4⟩ := ih
    exact ⟨by simp only [List.length_cons, List.length_append, List.length_nil] at i1 ⊢ <;> omega,
           i2, i3, i4⟩

theorem sizeBs_of_bLens {a b : List BB} (h : bLens a = bLens b) :
    sizeBs a = sizeBs b := by simp [sizeBs, h]

theorem length_of_bLens {a b : List BB} (h : bLens a = bLens b) :
    a.length = b.length := by
  have := congrArg List.length h
  simpa [bLens_length] using this

theorem r3Step_spec (cfg : List (List Nat)) (bi : Nat) (cur : Instr)
    (tail done : List Instr) (blocks : List BB) :
    (r3Step cfg bi cur tail done blocks).kept.length +
        (r3Step cfg bi cur tail done blocks).nPrim +
        sizeBs (r3Step cfg bi cur tail done blocks).blocks =
      tail.length + sizeBs blocks ∧
    (r3Step cfg bi cur tail done blocks).done.length = done.length ∧
    (r3Step cfg bi cur tail done blocks).stop = [] ∧
    (r3Step cfg bi cur tail done blocks).blocks.length = blocks.length ∧
    (r3Step cfg bi cur tail done blocks).kept.length ≤ tail.length := by
  unfold r3Step
  split
  · obtain ⟨a1, a2, a3, a4⟩ := sameBBGo_spec cur [] tail done blocks 0
    set s := sameBBGo cur [] tail done blocks 0 with hs
    obtain ⟨b1, b2, b3, b4⟩ :=
      domChildrenGo_spec s.cur (domChildren cfg bi) s.kept s.done s.blocks s.nPrim
    have ha3 := sizeBs_of_bLens a3
    have hl3 := length_of_bLens a3
    simp only [List.length_nil, Nat.zero_add] at a1
    refine ⟨?_, ?_, rfl, ?_, ?_⟩
    all_goals first
      | omega
      | (dsimp only; omega)
  · exact ⟨by dsimp only; omega, rfl, rfl, rfl, le_refl _⟩

theorem r4Step_spec (cur : Instr) (tail done : List Instr) (blocks : List BB) :
    (r4Step cur tail done blocks).kept.length +
        (r4Step cur tail done blocks).stop.length +
        (r4Step cur tail done blocks).nPrim = tail.length ∧
    (r4Step cur tail done blocks).done.length = done.length ∧
    sizeBs (r4Step cur tail done blocks).blocks = sizeBs blocks ∧
    (r4Step cur tail done blocks).blocks.length = blocks.length := by
  unfold r4Step
  split
  · obtain ⟨a1, a2, a3⟩ := elimLoadGo_spec cur [] tail done blocks 0
    exact ⟨by simpa using a1, a2, sizeBs_of_bLens a3, length_of_bLens a3⟩
  · exact ⟨by simp, rfl, rfl, rfl⟩

theorem driveStep_spec (simpF : Instr → Option Val) (cfg : List (List Nat))
    (bi : Nat) (cur : Instr) (tail done : List Instr) (blocks : List BB)
    (cnt : Counters) :
    cntSum (driveStep simpF cfg bi cur tail done blocks cnt).cnt +
        (driveStep simpF cfg bi cur tail done blocks cnt).rest.length +
        (driveStep simpF cfg bi cur tail done blocks cnt).done.length +
        sizeBs (driveStep simpF cfg bi cur tail done blocks cnt).blocks =
      cntSum cnt + 1 + tail.length + done.length + sizeBs blocks ∧
    (driveStep simpF cfg bi cur tail done blocks cnt).rest.length ≤ tail.length ∧
    (driveStep simpF cfg bi cur tail done blocks cnt).blocks.length = blocks.length := by
  unfold driveStep
  split
  · refine ⟨?_, le_refl _, rfl⟩
    simp [cntSum]
    omega
  · split
    · refine ⟨?_, ?_, ?_⟩ <;> simp [cntSum] <;> omega
    · dsimp only
      obtain ⟨a1, a2, a3, a4, a5⟩ := r3Step_spec cfg bi cur tail done blocks
      set s1 := r3Step cfg bi cur tail done blocks with hs1
      obtain ⟨b1, b2, b3, b4⟩ := r4Step_spec s1.cur s1.kept s1.done s1.blocks
      set s2 := r4Step s1.cur s1.kept s1.done s1.blocks with hs2
      split
      · obtain ⟨c1, c2, c3, c4⟩ :=
          elimStoreGo_spec s2.cur [] (s2.kept ++ s2.stop) s2.done s2.blocks 0
        set r := elimStoreGo s2.cur [] (s2.kept ++ s2.stop) s2.done s2.blocks 0 with hr
        have hc3s := sizeBs_of_bLens c3
        have hc3l := length_of_bLens c3
        simp only [List.length_append, List.length_nil, Nat.zero_add] at c1
        split
        · rename_i hkill
          simp only [hkill, if_true] at c4
          refine ⟨?_, ?_, ?_⟩
          all_goals
            ((try dsimp only);
             first
               | omega
               | (simp only [cntSum, List.length_append, List.length_cons,
                    List.length_nil]; omega))
        · rename_i hkill
          simp only [Bool.not_eq_true] at hkill
          simp only [hkill, if_false, Bool.false_eq_true] at c4
          refine ⟨?_, ?_, ?_⟩
          all_goals
            ((try dsimp only);
             first
               | omega
               | (simp only [cntSum, List.length_append, List.length_cons,
                    List.length_nil]; omega))
      · refine ⟨?_, ?_, ?_⟩
        all_goals
          ((try dsimp only);
           first
             | omega
             | (simp only [cntSum, List.length_append, List.length_cons,
                  List.length_nil]; omega))

/-- The result of processing one basic block's instruction list. -/
structure IRes where
  done : List Instr
  blocks : List BB
  cnt : Counters
deriving DecidableEq

/-- The instruction loop of `CommonSubexpressionElimination` (p2.cpp lines
256-298) over one basic block: repeat `driveStep` until the cursor reaches
the block end. -/
def runInsts (simpF : Instr → Option Val) (cfg : List (List Nat)) (bi : Nat) :
    List Instr → List Instr → List BB → Counters → IRes
  | [], done, blocks, cnt => { done := done, blocks := blocks, cnt := cnt }
  | cur :: tail, done, blocks, cnt =>
    runInsts simpF cfg bi (driveStep simpF cfg bi cur tail done blocks cnt).rest
      (driveStep simpF cfg bi cur tail done blocks cnt).done
      (driveStep simpF cfg bi cur tail done blocks cnt).blocks
      (driveStep simpF cfg bi cur tail done blocks cnt).cnt
termination_by rest _ _ _ => rest.length
decreasing_by
  have := (driveStep_spec simpF cfg bi cur tail done blocks cnt).2.1
  simp only [List.length_cons]
  omega

/-- The basic-block loop of `CommonSubexpressionElimination` (p2.cpp lines
253-299): process the blocks of the function in order.  The block being
processed is taken out of the block list (its slot keeps its successors and
an empty instruction list) and the surviving instructions are written back
when its cursor reaches the end. -/
def runBlocksFrom (simpF : Instr → Option Val) (cfg : List (List Nat))
    (n : Nat) : Nat → List BB → Counters → List BB × Counters
  | i, blocks, cnt =>
    if i < n then
      match blocks[i]? with
      | none => (blocks, cnt)
      | some b =>
        runBlocksFrom simpF cfg n (i + 1)
          ((runInsts simpF cfg i b.insts []
              (blocks.set i { insts := [], succs := b.succs }) cnt).blocks.set i
            { insts := (runInsts simpF cfg i b.insts []
                (blocks.set i { insts := [], succs := b.succs }) cnt).done,
              succs := b.succs })
          (runInsts simpF cfg i b.insts []
            (blocks.set i { insts := [], succs := b.succs }) cnt).cnt
    else (blocks, cnt)
termination_by i _ _ => n - i
decreasing_by omega

/-- `CommonSubexpressionElimination` for a single function: fix the CFG and
run the block loop. -/
def runFunc (simpF : Instr → Option Val) (f : Func) (cnt : Counters) :
    Func × Counters :=
  (⟨(runBlocksFrom simpF (f.blocks.map (fun b => b.succs)) f.blocks.length 0
       f.blocks cnt).1⟩,
   (runBlocksFrom simpF (f.blocks.map (fun b => b.succs)) f.blocks.length 0
      f.blocks cnt).2)

/-- `CommonSubexpressionElimination` (p2.cpp lines 248-301): the function
loop.  Returns the transformed module and the updated statistics counters
(the counters are process-wide, so they are threaded through). -/
def CommonSubexpressionElimination (simpF : Instr → Option Val) :
    IRModule → Counters → IRModule × Counters
  | [], cnt => ([], cnt)
  | f :: fs, cnt =>
    ((runFunc simpF f cnt).1 ::
       (CommonSubexpressionElimination simpF fs (runFunc simpF f cnt).2).1,
     (CommonSubexpressionElimination simpF fs (runFunc simpF f cnt).2).2)

theorem runInsts_conserve (simpF : Instr → Option Val) (cfg : List (List Nat))
    (bi : Nat) (rest done : List Instr) (blocks : List BB) (cnt : Counters) :
    cntSum (runInsts simpF cfg bi rest done blocks cnt).cnt +
        (runInsts simpF cfg bi rest done blocks cnt).done.length +
        sizeBs (runInsts simpF cfg bi rest done blocks cnt).blocks =
      cntSum cnt + rest.length + done.length + sizeBs blocks := by
  induction rest, done, blocks, cnt using runInsts.induct simpF cfg bi with
  | case1 done blocks cnt => simp [runInsts]
  | case2 cur tail done blocks cnt ih =>
    rw [runInsts]
    obtain ⟨h1, h2, h3⟩ := driveStep_spec simpF cfg bi cur tail done blocks cnt
    rw [ih]
    simp only [List.length_cons]
    omega

theorem runBlocksFrom_conserve (simpF : Instr → Option Val)
    (cfg : List (List Nat)) (n : Nat) (i : Nat) (blocks : List BB)
    (cnt : Counters) :
    cntSum (runBlocksFrom simpF cfg n i blocks cnt).2 +
        sizeBs (runBlocksFrom simpF cfg n i blocks cnt).1 ≤
      cntSum cnt + sizeBs blocks := by
  induction i, blocks, cnt using runBlocksFrom.induct simpF cfg n with
  | case2 i blocks cnt hlt b hsome ih =>
    rw [runBlocksFrom]
    simp only [if_pos hlt, hsome]
    refine le_trans ih ?_
    set blocks0 := blocks.set i ({ insts := [], succs := b.succs } : BB) with hb0
    have hrun := runInsts_conserve simpF cfg i b.insts [] blocks0 cnt
    set r := runInsts simpF cfg i b.insts [] blocks0 cnt with hrr
    have hsz0 : sizeBs blocks0 + b.insts.length = sizeBs blocks + 0 := by
      simpa using sizeBs_set blocks i { insts := [], succs := b.succs } b hsome
    have hsetle : sizeBs (r.blocks.set i { insts := r.done, succs := b.succs }) ≤
        sizeBs r.blocks + r.done.length := by
      rcases hg : r.blocks[i]? with _ | b2
      · rw [List.set_eq_of_length_le]
        · omega
        · have := List.getElem?_eq_none_iff.mp hg
          omega
      · have := sizeBs_set r.blocks i { insts := r.done, succs := b.succs } b2 hg
        simp at this
        omega
    simp only [List.length_nil] at hrun
    omega
  | case1 i blocks cnt hlt hnone =>
    rw [runBlocksFrom]
    simp [if_pos hlt, hnone]
  | case3 i blocks cnt hge =>
    rw [runBlocksFrom]
    simp [hge]

theorem runFunc_conserve (simpF : Instr → Option Val) (f : Func)
    (cnt : Counters) :
    cntSum (runFunc simpF f cnt).2 + sizeF (runFunc simpF f cnt).1 ≤
      cntSum cnt + sizeF f := by
  have := runBlocksFrom_conserve simpF (f.blocks.map (fun b => b.succs))
    f.blocks.length 0 f.blocks cnt
  simpa [runFunc, sizeF] using this

theorem CSE_conserve (simpF : Instr → Option Val) (m : IRModule)
    (cnt : Counters) :
    cntSum (CommonSubexpressionElimination simpF m cnt).2 +
        sizeM (CommonSubexpressionElimination simpF m cnt).1 ≤
      cntSum cnt + sizeM m := by
  induction m generalizing cnt with
  | nil => simp [CommonSubexpressionElimination, sizeM]
  | cons f fs ih =>
    rw [CommonSubexpressionElimination]
    have h1 := runFunc_conserve simpF f cnt
    have h2 := ih (runFunc simpF f cnt).2
    simp only [sizeM, List.map_cons, List.sum_cons] at *
    omega

/-! `summarize` (p2.cpp lines 145-163) and the summary counters. -/

structure Summary where
  nFunctions : Nat
  nInstructions : Nat
  nLoads : Nat
  nStores : Nat
deriving DecidableEq

/-- The body of the innermost loop of `summarize`: count the instruction,
and classify it as a load or else as a store. -/
def summarizeInst (I : Instr) (s : Summary) : Summary :=
  let s1 := { s with nInstructions := s.nInstructions + 1 }
  if I.opcode = .Load then { s1 with nLoads := s1.nLoads + 1 }
  else if I.opcode = .Store then { s1 with nStores := s1.nStores + 1 }
  else s1

def summarizeBlock (b : BB) (s : Summary) : Summary :=
  b.insts.foldl (fun acc I => summarizeInst I acc) s

/-- One iteration of the function loop of `summarize`: `nFunctions` counts
the function only when its basic-block list is non-empty, then every
instruction of every block is visited. -/
def summarizeFunc (f : Func) (s : Summary) : Summary :=
  f.blocks.foldl (fun acc b => summarizeBlock b acc)
    (if f.blocks ≠ [] then { s with nFunctions := s.nFunctions + 1 } else s)

def summarize (m : IRModule) : Summary :=
  m.foldl (fun acc f => summarizeFunc f acc) ⟨0, 0, 0, 0⟩

/-- All instructions of a module, in program order. -/
def allInsts (m : IRModule) : List Instr :=
  (m.map (fun f => (f.blocks.map (fun b => b.insts)).flatten)).flatten

/-! `main` (p2.cpp lines 77-138).  Parsing, the mem2reg pre-pass, the
verifier and bitcode output are external collaborators; they enter as
parameters.  `parsed` is the outcome of `parseIRFile` (`none` on a parse
error); `verifierFails` tells whether the verifier pass (which aborts the
process with a nonzero status after printing to standard error) rejects the
transformed module. -/

structure MainOut where
  exitCode : Nat
  parseDiagnostic : Bool
deriving DecidableEq

def mainRun (parsed : Option IRModule) (mem2regPass : IRModule → IRModule)
    (useMem2Reg noCSE noCheck : Bool) (simpF : Instr → Option Val)
    (verifierFails : Bool) : MainOut :=
  match parsed with
  | none => { exitCode := 1, parseDiagnostic := true }
  | some m0 =>
    let m1 := if useMem2Reg then mem2regPass m0 else m0
    let _m2 := if !noCSE then (CommonSubexpressionElimination simpF m1 czero).1
               else m1
    if !noCheck && verifierFails then { exitCode := 1, parseDiagnostic := false }
    else { exitCode := 0, parseDiagnostic := false }

theorem summarizeInsts_spec (l : List Instr) (s : Summary) :
    l.foldl (fun acc I => summarizeInst I acc) s =
      ⟨s.nFunctions, s.nInstructions + l.length,
       s.nLoads + l.countP (fun I => decide (I.opcode = .Load)),
       s.nStores + l.countP (fun I => decide (I.opcode = .Store))⟩ := by
  induction l generalizing s with
  | nil => simp
  | cons I l ih =>
    rw [List.foldl_cons, ih]
    by_cases hL : I.opcode = .Load
    · simp [summarizeInst, hL, List.countP_cons]
      omega
    · by_cases hS : I.opcode = .Store
      · simp [summarizeInst, hL, hS, List.countP_cons]
        omega
      · simp [summarizeInst, hL, hS, List.countP_cons]
        omega

theorem summarizeFunc_spec (f : Func) (s : Summary) :
    summarizeFunc f s =
      ⟨s.nFunctions + (if f.blocks ≠ [] then 1 else 0),
       s.nInstructions + ((f.blocks.map (fun b => b.insts)).flatten).length,
       s.nLoads + ((f.blocks.map (fun b => b.insts)).flatten).countP
         (fun I => decide (I.opcode = .Load)),
       s.nStores + ((f.blocks.map (fun b => b.insts)).flatten).countP
         (fun I => decide (I.opcode = .Store))⟩ := by
  unfold summarizeFunc
  have main : ∀ (bs : List BB) (s0 : Summary),
      bs.foldl (fun acc b => summarizeBlock b acc) s0 =
        ⟨s0.nFunctions,
         s0.nInstructions + ((bs.map (fun b => b.insts)).flatten).length,
         s0.nLoads + ((bs.map (fun b => b.insts)).flatten).countP
           (fun I => decide (I.opcode = .Load)),
         s0.nStores + ((bs.map (fun b => b.insts)).flatten).countP
           (fun I => decide (I.opcode = .Store))⟩ := by
    intro bs
    induction bs with
    | nil => intro s0; simp
    | cons b bs ih =>
      intro s0
      rw [List.foldl_cons, summarizeBlock, summarizeInsts_spec, ih]
      simp [List.countP_append]
      omega
  rw [main]
  by_cases hne : f.blocks = []
  · simp [hne]
  · simp [hne]

/-- Claim C10: after `summarize` runs on a module, `Functions` counts exactly
the functions with at least one basic block, while `Instructions`, `Loads`
and `Stores` count over all instructions of all functions. -/
theorem c10_summarize_counts (m : IRModule) :
    summarize m =
      ⟨m.countP (fun f => decide (f.blocks ≠ [])),
       (allInsts m).length,
       (allInsts m).countP (fun I => decide (I.opcode = .Load)),
       (allInsts m).countP (fun I => decide (I.opcode = .Store))⟩ := by
  have main : ∀ (fs : IRModule) (s : Summary),
      fs.foldl (fun acc f => summarizeFunc f acc) s =
        ⟨s.nFunctions + fs.countP (fun f => decide (f.blocks ≠ [])),
         s.nInstructions + (allInsts fs).length,
         s.nLoads + (allInsts fs).countP (fun I => decide (I.opcode = .Load)),
         s.nStores + (allInsts fs).countP (fun I => decide (I.opcode = .Store))⟩ := by
    intro fs
    induction fs with
    | nil => intro s; simp [allInsts]
    | cons f fs ih =>
      intro s
      rw [List.foldl_cons, summarizeFunc_spec, ih]
      simp [allInsts, List.countP_cons, List.countP_append]
      refine ⟨?_, ?_, ?_, ?_⟩ <;> by_cases hne : f.blocks = [] <;>
        (try simp [hne]) <;> omega
  rw [summarize, main]
  simp

/-- Claim C9: on a parse failure `main` prints the diagnostic to standard
error and returns 1; when parsing succeeds and the verifier does not reject
the transformed module, `main` falls through to the end and returns 0. -/
theorem c9_exit_codes (mem2regPass : IRModule → IRModule)
    (useMem2Reg noCSE noCheck : Bool) (simpF : Instr → Option Val)
    (verifierFails : Bool) :
    (mainRun none mem2regPass useMem2Reg noCSE noCheck simpF verifierFails =
      { exitCode := 1, parseDiagnostic := true }) ∧
    (∀ m : IRModule, verifierFails = false →
      mainRun (some m) mem2regPass useMem2Reg noCSE noCheck simpF verifierFails =
        { exitCode := 0, parseDiagnostic := false }) := by
  refine ⟨rfl, ?_⟩
  intro m h
  subst h
  simp [mainRun]

/-- Witness for C9 at a concrete input: an empty module parsed successfully,
with the verifier accepting. -/
theorem c9_exit_codes_witness :
    (false = false) ∧
    mainRun (some []) id false false false (fun _ => none) false =
      { exitCode := 0, parseDiagnostic := false } :=
  ⟨rfl, (c9_exit_codes id false false false (fun _ => none) false).2 [] rfl⟩

/-- The trivially-dead-safe opcode set as the spec enumerates it: pure
integer/float arithmetic, casts, both compares, phi, select,
getelementptr, and the aggregate ops. -/
def trivDeadList : List Opcode :=
  [.Add, .FNeg, .FAdd, .Sub, .FSub, .Mul, .FMul, .UDiv, .SDiv, .FDiv,
   .URem, .SRem, .FRem, .Shl, .LShr, .AShr, .And, .Or, .Xor,
   .GetElementPtr, .Trunc, .ZExt, .SExt, .FPToUI, .FPToSI, .UIToFP, .SIToFP,
   .FPTrunc, .FPExt, .PtrToInt, .IntToPtr, .BitCast, .AddrSpaceCast,
   .ICmp, .FCmp, .PHI, .Select,
   .ExtractElement, .InsertElement, .ShuffleVector, .ExtractValue, .InsertValue]

/-- Claim C6: rule R1 erases the cursor instruction and bumps `CSEDead`
exactly when its use list is empty and its opcode is trivially-dead-safe;
the safe set is precisely the enumerated one, and `Load`, `Store`, `Call`,
`Alloca`, `VAArg` and terminators are never in it, so R1 never erases them
even with an empty use list (`CSEDead` stays put unless R1 fires). -/
theorem c6_dead_rule (op : Opcode) (u : Bool) (simpF : Instr → Option Val)
    (cfg : List (List Nat)) (bi : Nat) (cur : Instr) (tail done : List Instr)
    (blocks : List BB) (cnt : Counters) :
    (trivDeadOpcode op = true ↔ op ∈ trivDeadList) ∧
    ((op ∈ ([.Load, .Store, .Call, .Alloca, .VAArg] : List Opcode) ∨
        op.isTerminator = true) → trivDeadOpcode op = false) ∧
    (isDead u cur = (u && trivDeadOpcode cur.opcode)) ∧
    ((driveStep simpF cfg bi cur tail done blocks cnt).cnt.cseDead =
      cnt.cseDead +
        (if isDead (!(hasUseIn cur.id (done ++ cur :: tail) ||
            hasUseBs cur.id blocks)) cur then 1 else 0)) ∧
    (isDead (!(hasUseIn cur.id (done ++ cur :: tail) ||
        hasUseBs cur.id blocks)) cur = true →
      driveStep simpF cfg bi cur tail done blocks cnt =
        { rest := tail, done := done, blocks := blocks,
          cnt := { cnt with cseDead := cnt.cseDead + 1 } }) := by
  refine ⟨?_, ?_, ?_, ?_, ?_⟩
  · cases op <;> simp [trivDeadOpcode, trivDeadList]
  · intro h
    rcases h with h | h
    · fin_cases h <;> rfl
    · cases op <;> first | rfl | simp [Opcode.isTerminator] at h
  · cases u <;> simp [isDead]
  · unfold driveStep
    split
    · rename_i h
      simp [h]
    · rename_i h
      simp only [Bool.not_eq_true] at h
      split
      · simp [h]
      · dsimp only
        split
        · split <;> simp [h]
        · simp [h]
  · intro h
    unfold driveStep
    rw [if_pos h]

/-- Witness for C6 at concrete inputs: a use-free `add` at the cursor is
erased by R1 with `CSEDead` bumped, while `Load` is outside the
trivially-dead-safe set. -/
theorem c6_dead_rule_witness :
    (isDead (!(hasUseIn 5 (([] : List Instr) ++
        (⟨5, .Add, 1, [⟨1, 1⟩, ⟨2, 1⟩], false, 0⟩ : Instr) ::
          [⟨6, .Ret, 0, [], false, 0⟩]) || hasUseBs 5 []))
        ⟨5, .Add, 1, [⟨1, 1⟩, ⟨2, 1⟩], false, 0⟩ = true) ∧
    (driveStep (fun _ => none) [] 0 ⟨5, .Add, 1, [⟨1, 1⟩, ⟨2, 1⟩], false, 0⟩
        [⟨6, .Ret, 0, [], false, 0⟩] [] [] czero =
      { rest := [⟨6, .Ret, 0, [], false, 0⟩], done := [], blocks := [],
        cnt := { czero with cseDead := czero.cseDead + 1 } }) ∧
    ((Opcode.Load ∈ ([.Load, .Store, .Call, .Alloca, .VAArg] : List Opcode) ∨
        Opcode.Load.isTerminator = true) ∧ trivDeadOpcode .Load = false) :=
  ⟨by decide,
   (c6_dead_rule .Add true (fun _ => none) [] 0
      ⟨5, .Add, 1, [⟨1, 1⟩, ⟨2, 1⟩], false, 0⟩
      [⟨6, .Ret, 0, [], false, 0⟩] [] [] czero).2.2.2.2 (by decide),
   ⟨by decide,
    (c6_dead_rule .Load true (fun _ => none) [] 0
       ⟨5, .Add, 1, [⟨1, 1⟩, ⟨2, 1⟩], false, 0⟩
       [⟨6, .Ret, 0, [], false, 0⟩] [] [] czero).2.1 (by decide)⟩⟩

/-- Claim C7: `isValidForCSE` accepts exactly the opcodes outside
`{Load, Store, FCmp, Alloca, VAArg, Call, terminators}`, and when the cursor
instruction is excluded the driver performs no R3 elimination: `CSEElim`
does not change in that step. -/
theorem c7_cse_eligibility (I : Instr) (simpF : Instr → Option Val)
    (cfg : List (List Nat)) (bi : Nat) (cur : Instr) (tail done : List Instr)
    (blocks : List BB) (cnt : Counters) :
    (isValidForCSE I = true ↔
      ¬(I.opcode = .Load ∨ I.opcode = .Store ∨ I.opcode = .FCmp ∨
        I.opcode = .Alloca ∨ I.opcode = .VAArg ∨ I.opcode = .Call ∨
        I.opcode.isTerminator = true)) ∧
    (isValidForCSE cur = false →
      (driveStep simpF cfg bi cur tail done blocks cnt).cnt.cseElim =
        cnt.cseElim) := by
  constructor
  · unfold isValidForCSE
    split <;> simp_all
  · intro h
    unfold driveStep
    split
    · simp
    · split
      · simp
      · have hr3 : r3Step cfg bi cur tail done blocks =
            { cur := cur, kept := tail, done := done, blocks := blocks,
              nPrim := 0 } := by
          unfold r3Step
          rw [if_neg (by simp [h])]
        dsimp only
        rw [hr3]
        split
        · split <;> simp
        · simp

/-- Witness for C7 at concrete inputs: a `Call` at the cursor (with an
argument so that it is not use-free, though R1 could not fire anyway) leaves
`CSEElim` untouched. -/
theorem c7_cse_eligibility_witness :
    (isValidForCSE ⟨5, .Call, 1, [⟨1, 1⟩], false, 0⟩ = false) ∧
    (driveStep (fun _ => none) [] 0 ⟨5, .Call, 1, [⟨1, 1⟩], false, 0⟩
        [⟨6, .Ret, 0, [], false, 0⟩] [] [] czero).cnt.cseElim =
      czero.cseElim :=
  ⟨by decide,
   (c7_cse_eligibility ⟨5, .Call, 1, [⟨1, 1⟩], false, 0⟩ (fun _ => none) [] 0
      ⟨5, .Call, 1, [⟨1, 1⟩], false, 0⟩
      [⟨6, .Ret, 0, [], false, 0⟩] [] [] czero).2 (by decide)⟩

/-- The degenerate simplifier: `SimplifyInstruction` returns null on every
instruction of the modules below (adds and multiplies of opaque function
arguments, loads from opaque pointers, stores, returns — none of them fold). -/
def simplifyNone : Instr → Option Val := fun _ => none

/-- A module on which the pass is not near-idempotent: `%3 = add %1 %2` and
`%4 = mul %1 %2` feed only `%5 = add %3 %4`, which itself has no uses.  The
first run only erases `%5` (the cursor has already passed `%3` and `%4` when
they become dead); the second run erases both `%3` and `%4`. -/
def c8Mod : IRModule :=
  [⟨[⟨[⟨3, .Add, 1, [⟨1, 1⟩, ⟨2, 1⟩], false, 0⟩,
      ⟨4, .Mul, 1, [⟨1, 1⟩, ⟨2, 1⟩], false, 0⟩,
      ⟨5, .Add, 1, [⟨3, 1⟩, ⟨4, 1⟩], false, 0⟩,
      ⟨6, .Ret, 0, [], false, 0⟩], []⟩]⟩]

unseal sameBBGo domScanGo elimLoadGo elimStoreGo runInsts runBlocksFrom in
/-- Counterexample to claim C8 as stated: on `c8Mod` the first run increments
the six-counter sum by 1 and the second run by 2, so the second run's
increment exceeds the first's. -/
theorem c8_counterexample :
    cntSum (CommonSubexpressionElimination simplifyNone c8Mod czero).2 = 1 ∧
    cntSum (CommonSubexpressionElimination simplifyNone
        (CommonSubexpressionElimination simplifyNone c8Mod czero).1
        (CommonSubexpressionElimination simplifyNone c8Mod czero).2).2 = 3 ∧
    ¬(cntSum (CommonSubexpressionElimination simplifyNone
          (CommonSubexpressionElimination simplifyNone c8Mod czero).1
          (CommonSubexpressionElimination simplifyNone c8Mod czero).2).2 -
        cntSum (CommonSubexpressionElimination simplifyNone c8Mod czero).2 ≤
      cntSum (CommonSubexpressionElimination simplifyNone c8Mod czero).2 -
        cntSum czero) := by
  decide

/-- Claim C8 (amended): the second run's counter increment can exceed the
first's, but every counter increment erases exactly one instruction, so over
two consecutive runs (starting from zeroed counters) the six-counter sum is
bounded by the instruction count of the original module. -/
theorem c8_two_run_bound (simpF : Instr → Option Val) (m : IRModule) :
    cntSum (CommonSubexpressionElimination simpF
        (CommonSubexpressionElimination simpF m czero).1
        (CommonSubexpressionElimination simpF m czero).2).2 ≤ sizeM m := by
  have h1 := CSE_conserve simpF m czero
  have h2 := CSE_conserve simpF (CommonSubexpressionElimination simpF m czero).1
    (CommonSubexpressionElimination simpF m czero).2
  have hz : cntSum czero = 0 := rfl
  omega

/-!  Simultaneous-substitution machinery.

Every use-redirection a single scan performs replaces some erased value by
the same replacement `v` (the current instruction for R3/R4, the stored
value for R5's forwarding).  When none of the erased ids equals `v.id`, the
sequence of `replaceAllUsesWith` calls equals one simultaneous substitution
of the erased id set; the lemmas below let the scan characterisations be
stated against the untouched input. -/

def substVal (es : List Nat) (v : Val) (o : Val) : Val := if o.id ∈ es then v else o

def substI (es : List Nat) (v : Val) (I : Instr) : Instr :=
  { I with operands := I.operands.map (substVal es v) }

def substL (es : List Nat) (v : Val) (l : List Instr) : List Instr :=
  l.map (substI es v)

def substBs (es : List Nat) (v : Val) (bs : List BB) : List BB :=
  bs.map (fun b => { b with insts := substL es v b.insts })

def operandIds (I : Instr) : List Nat := I.operands.map (fun o => o.id)

theorem map_self_of_eq {α : Type} (f : α → α) :
    ∀ (l : List α), (∀ a ∈ l, f a = a) → l.map f = l
  | [], _ => rfl
  | a :: t, h => by
    rw [List.map_cons, h a (by simp), map_self_of_eq f t (fun x hx => h x (by simp [hx]))]

@[simp] theorem substVal_nil (v : Val) (o : Val) : substVal [] v o = o := by
  simp [substVal]

@[simp] theorem substI_nil (v : Val) (I : Instr) : substI [] v I = I := by
  unfold substI
  rw [map_self_of_eq _ _ (fun o _ => substVal_nil v o)]

@[simp] theorem substL_nil (v : Val) (l : List Instr) : substL [] v l = l := by
  unfold substL
  rw [map_self_of_eq _ _ (fun I _ => substI_nil v I)]

@[simp] theorem substBs_nil (v : Val) (bs : List BB) : substBs [] v bs = bs := by
  unfold substBs
  apply map_self_of_eq
  intro b _
  simp

theorem rauwI_noop (e : Nat) (v : Val) (I : Instr) (h : e ∉ operandIds I) :
    rauwI e v I = I := by
  unfold rauwI
  have hall : ∀ o ∈ I.operands, rauwVal e v o = o := by
    intro o ho
    have hne : ¬ o.id = e := by
      intro hh
      exact h (by simp [operandIds]; exact ⟨o, ho, hh⟩)
    simp [rauwVal, hne]
  rw [map_self_of_eq _ _ hall]

theorem substVal_rauwVal (e : Nat) (es : List Nat) (v : Val) (hv : v.id ∉ es)
    (o : Val) : substVal es v (rauwVal e v o) = substVal (e :: es) v o := by
  by_cases h1 : o.id = e
  · simp [rauwVal, substVal, h1, hv]
  · by_cases h2 : o.id ∈ es <;> simp [rauwVal, substVal, h1, h2]

theorem substI_rauwI (e : Nat) (es : List Nat) (v : Val) (hv : v.id ∉ es)
    (I : Instr) : substI es v (rauwI e v I) = substI (e :: es) v I := by
  simp only [substI, rauwI, List.map_map]
  congr 1
  apply List.map_congr_left
  intro o _
  exact substVal_rauwVal e es v hv o

theorem substL_rauwL (e : Nat) (es : List Nat) (v : Val) (hv : v.id ∉ es)
    (l : List Instr) : substL es v (rauwL e v l) = substL (e :: es) v l := by
  simp only [substL, rauwL, List.map_map]
  apply List.map_congr_left
  intro I _
  exact substI_rauwI e es v hv I

theorem substBs_rauwBs (e : Nat) (es : List Nat) (v : Val) (hv : v.id ∉ es)
    (bs : List BB) : substBs es v (rauwBs e v bs) = substBs (e :: es) v bs := by
  simp only [substBs, rauwBs, List.map_map]
  apply List.map_congr_left
  intro b _
  simp only [Function.comp, rauwB]
  congr 1
  exact substL_rauwL e es v hv b.insts

@[simp] theorem substI_id (es : List Nat) (v : Val) (I : Instr) :
    (substI es v I).id = I.id := rfl

@[simp] theorem substI_opcode (es : List Nat) (v : Val) (I : Instr) :
    (substI es v I).opcode = I.opcode := rfl

@[simp] theorem rauwI_id (e : Nat) (v : Val) (I : Instr) :
    (rauwI e v I).id = I.id := rfl

@[simp] theorem rauwI_opcode (e : Nat) (v : Val) (I : Instr) :
    (rauwI e v I).opcode = I.opcode := rfl

@[simp] theorem rauwI_ty (e : Nat) (v : Val) (I : Instr) :
    (rauwI e v I).ty = I.ty := rfl

@[simp] theorem rauwI_isVolatile (e : Nat) (v : Val) (I : Instr) :
    (rauwI e v I).isVolatile = I.isVolatile := rfl

@[simp] theorem rauwI_flags (e : Nat) (v : Val) (I : Instr) :
    (rauwI e v I).flags = I.flags := rfl

/-! Generic lemmas: a map that does not change the value of a predicate on
the members of a list commutes with `takeWhile`, `dropWhile`, `filter` and
`countP` over that list. -/

theorem takeWhile_map_congr {α : Type} (f : α → α) (p : α → Bool) :
    ∀ (l : List α), (∀ a ∈ l, p (f a) = p a) →
      (l.map f).takeWhile p = (l.takeWhile p).map f
  | [], _ => rfl
  | a :: t, h => by
    simp only [List.map_cons, List.takeWhile_cons, h a (by simp)]
    cases hpa : p a with
    | false => simp
    | true =>
      simp only [if_true]
      rw [takeWhile_map_congr f p t (fun x hx => h x (by simp [hx])), List.map_cons]

theorem dropWhile_map_congr {α : Type} (f : α → α) (p : α → Bool) :
    ∀ (l : List α), (∀ a ∈ l, p (f a) = p a) →
      (l.map f).dropWhile p = (l.dropWhile p).map f
  | [], _ => rfl
  | a :: t, h => by
    simp only [List.map_cons, List.dropWhile_cons, h a (by simp)]
    cases hpa : p a with
    | false => simp
    | true =>
      simp only [if_true]
      rw [dropWhile_map_congr f p t (fun x hx => h x (by simp [hx]))]

theorem filter_map_congr {α : Type} (f : α → α) (p : α → Bool) :
    ∀ (l : List α), (∀ a ∈ l, p (f a) = p a) →
      (l.map f).filter p = (l.filter p).map f
  | [], _ => rfl
  | a :: t, h => by
    simp only [List.map_cons, List.filter_cons, h a (by simp)]
    cases hpa : p a with
    | false => simp [filter_map_congr f p t (fun x hx => h x (by simp [hx]))]
    | true => simp [filter_map_congr f p t (fun x hx => h x (by simp [hx]))]

theorem countP_map_congr {α : Type} (f : α → α) (p : α → Bool) :
    ∀ (l : List α), (∀ a ∈ l, p (f a) = p a) →
      (l.map f).countP p = l.countP p
  | [], _ => rfl
  | a :: t, h => by
    simp only [List.map_cons, List.countP_cons, h a (by simp)]
    rw [countP_map_congr f p t (fun x hx => h x (by simp [hx]))]

/-! The static classifiers of the R4 scan, evaluated against the untouched
input (the characterisation below shows that under the stated aliasing
hypotheses the running scan makes the same decisions). -/

/-- A later instruction R4 eliminates: a non-volatile load of the current
load's pointer operand with the current load's result type. -/
def r4Match (cur I : Instr) : Bool :=
  decide (I.opcode = .Load ∧ I.isVolatile = false ∧ opnd I 0 = opnd cur 0 ∧
          I.ty = cur.ty)

def notStore (I : Instr) : Bool := decide (¬ I.opcode = .Store)

/-- The ids of the loads R4 erases: the matching loads before the first
store. -/
def r4Elims (cur : Instr) (rest : List Instr) : List Nat :=
  ((rest.takeWhile notStore).filter (r4Match cur)).map (fun I => I.id)

theorem r4Elims_mem {cur : Instr} {rest : List Instr} {x : Nat}
    (h : x ∈ r4Elims cur rest) :
    ∃ I, I ∈ rest ∧ r4Match cur I = true ∧ I.id = x := by
  simp only [r4Elims, List.mem_map, List.mem_filter] at h
  obtain ⟨I, ⟨hIw, hIm⟩, hid⟩ := h
  exact ⟨I, (List.takeWhile_prefix notStore).subset hIw, hIm, hid⟩

theorem r4Match_rauwI (cur J : Instr) (e : Nat) (v : Val)
    (hJ : J.opcode = .Load → e ∉ operandIds J) :
    r4Match cur (rauwI e v J) = r4Match cur J := by
  by_cases hL : J.opcode = .Load
  · rw [rauwI_noop e v J (hJ hL)]
  · simp [r4Match, hL]

@[simp] theorem notStore_rauwI (J : Instr) (e : Nat) (v : Val) :
    notStore (rauwI e v J) = notStore J := by
  simp [notStore]

theorem ids_rauwL (e : Nat) (v : Val) (l : List Instr) :
    (rauwL e v l).map (fun I => I.id) = l.map (fun I => I.id) := by
  simp [rauwL, List.map_map, Function.comp]

theorem r4Elims_rauwL (cur : Instr) (e : Nat) (v : Val) (t : List Instr)
    (hld : ∀ J ∈ t, J.opcode = .Load → e ∉ operandIds J) :
    r4Elims cur (rauwL e v t) = r4Elims cur t := by
  unfold r4Elims rauwL
  rw [takeWhile_map_congr _ _ t (fun J _ => notStore_rauwI J e v)]
  rw [filter_map_congr _ _ (t.takeWhile notStore)
    (fun J hJ => r4Match_rauwI cur J e v
      (fun hL => hld J ((List.takeWhile_prefix notStore).subset hJ) hL))]
  simp [List.map_map, Function.comp]

theorem r4Elims_cons_match (cur h : Instr) (t : List Instr)
    (hm : r4Match cur h = true) :
    r4Elims cur (h :: t) = h.id :: r4Elims cur t := by
  have hns : notStore h = true := by
    have hop : h.opcode = .Load := by
      simp only [r4Match, decide_eq_true_eq] at hm
      exact hm.1
    simp [notStore, hop]
  simp [r4Elims, List.takeWhile_cons, hns, List.filter_cons, hm]

theorem elimLoadGo_char (cur : Instr) (acc rest done : List Instr)
    (blocks : List BB) (n : Nat) :
    (∀ I ∈ rest, r4Match cur I = true → I.id ∉ operandIds cur) →
    (∀ I ∈ rest, r4Match cur I = true →
      ∀ J ∈ rest, J.opcode = .Load → I.id ∉ operandIds J) →
    (∀ I ∈ rest, r4Match cur I = true → I.id ≠ cur.id) →
    elimLoadGo cur acc rest done blocks n =
      { cur := cur,
        kept := substL (r4Elims cur rest) (valOf cur)
          (acc ++ (rest.takeWhile notStore).filter (fun I => !r4Match cur I)),
        stop := substL (r4Elims cur rest) (valOf cur) (rest.dropWhile notStore),
        done := substL (r4Elims cur rest) (valOf cur) done,
        blocks := substBs (r4Elims cur rest) (valOf cur) blocks,
        nPrim := n + (rest.takeWhile notStore).countP (r4Match cur) } := by
  induction cur, acc, rest, done, blocks, n using elimLoadGo.induct with
  | case1 cur acc done blocks n =>
    intro _ _ _
    simp [elimLoadGo, r4Elims]
  | case2 cur acc done blocks n h t hc ih =>
    intro hcur hld hid
    have hmatch : r4Match cur h = true := by
      simp only [r4Match, decide_eq_true_eq]
      exact hc
    have hmem : h ∈ h :: t := by simp
    have hcureq : rauwI h.id (valOf cur) cur = cur :=
      rauwI_noop _ _ _ (hcur h hmem hmatch)
    have hldt : ∀ J ∈ t, J.opcode = .Load → h.id ∉ operandIds J :=
      fun J hJ hL => hld h hmem hmatch J (by simp [hJ]) hL
    rw [hcureq] at ih
    rw [elimLoadGo, if_pos hc, hcureq]
    have hcur' : ∀ I ∈ rauwL h.id (valOf cur) t, r4Match cur I = true →
        I.id ∉ operandIds cur := by
      intro I hI hm
      obtain ⟨I0, hI0, rfl⟩ := List.mem_map.mp hI
      rw [r4Match_rauwI cur I0 h.id (valOf cur) (fun hL => hldt I0 hI0 hL)] at hm
      simpa using hcur I0 (by simp [hI0]) hm
    have hld' : ∀ I ∈ rauwL h.id (valOf cur) t, r4Match cur I = true →
        ∀ J ∈ rauwL h.id (valOf cur) t, J.opcode = .Load →
          I.id ∉ operandIds J := by
      intro I hI hm J hJ hL
      obtain ⟨I0, hI0, rfl⟩ := List.mem_map.mp hI
      obtain ⟨J0, hJ0, rfl⟩ := List.mem_map.mp hJ
      rw [r4Match_rauwI cur I0 h.id (valOf cur) (fun hL0 => hldt I0 hI0 hL0)] at hm
      have hL0 : J0.opcode = .Load := by simpa using hL
      rw [rauwI_noop _ _ _ (hldt J0 hJ0 hL0)]
      simpa using hld I0 (by simp [hI0]) hm J0 (by simp [hJ0]) hL0
    have hid' : ∀ I ∈ rauwL h.id (valOf cur) t, r4Match cur I = true →
        I.id ≠ cur.id := by
      intro I hI hm
      obtain ⟨I0, hI0, rfl⟩ := List.mem_map.mp hI
      rw [r4Match_rauwI cur I0 h.id (valOf cur) (fun hL => hldt I0 hI0 hL)] at hm
      simpa using hid I0 (by simp [hI0]) hm
    rw [ih hcur' hld' hid']
    have hE : r4Elims cur (rauwL h.id (valOf cur) t) = r4Elims cur t :=
      r4Elims_rauwL cur h.id (valOf cur) t hldt
    have hvE : (valOf cur).id ∉ r4Elims cur t := by
      intro hmem2
      obtain ⟨I, hIt, hIm, hIid⟩ := r4Elims_mem hmem2
      exact hid I (by simp [hIt]) hIm (by simpa [valOf] using hIid)
    have htw : (rauwL h.id (valOf cur) t).takeWhile notStore =
        rauwL h.id (valOf cur) (t.takeWhile notStore) :=
      takeWhile_map_congr _ _ t (fun J _ => notStore_rauwI J h.id (valOf cur))
    have hdw : (rauwL h.id (valOf cur) t).dropWhile notStore =
        rauwL h.id (valOf cur) (t.dropWhile notStore) :=
      dropWhile_map_congr _ _ t (fun J _ => notStore_rauwI J h.id (valOf cur))
    have hfl : ((rauwL h.id (valOf cur) t).takeWhile notStore).filter
          (fun I => !r4Match cur I) =
        rauwL h.id (valOf cur)
          ((t.takeWhile notStore).filter (fun I => !r4Match cur I)) := by
      rw [htw]
      exact filter_map_congr _ _ (t.takeWhile notStore)
        (fun J hJ => by
          rw [r4Match_rauwI cur J h.id (valOf cur)
            (fun hL => hldt J ((List.takeWhile_prefix notStore).subset hJ) hL)])
    have hcp : ((rauwL h.id (valOf cur) t).takeWhile notStore).countP
          (r4Match cur) = (t.takeWhile notStore).countP (r4Match cur) := by
      rw [htw]
      exact countP_map_congr _ _ (t.takeWhile notStore)
        (fun J hJ => r4Match_rauwI cur J h.id (valOf cur)
          (fun hL => hldt J ((List.takeWhile_prefix notStore).subset hJ) hL))
    rw [hE, hfl, hdw, hcp]
    have hns : notStore h = true := by
      have hop : h.opcode = .Load := hc.1
      simp [notStore, hop]
    have hEc : r4Elims cur (h :: t) = h.id :: r4Elims cur t :=
      r4Elims_cons_match cur h t hmatch
    have happ : rauwL h.id (valOf cur) acc ++
        rauwL h.id (valOf cur)
          ((t.takeWhile notStore).filter (fun I => !r4Match cur I)) =
        rauwL h.id (valOf cur)
          (acc ++ (t.takeWhile notStore).filter (fun I => !r4Match cur I)) := by
      simp [rauwL]
    rw [happ, substL_rauwL h.id _ _ hvE, substL_rauwL h.id _ _ hvE,
        substL_rauwL h.id _ _ hvE, substBs_rauwBs h.id _ _ hvE, hEc]
    simp only [List.takeWhile_cons, hns, List.filter_cons, hmatch,
      Bool.not_true, List.dropWhile_cons, List.countP_cons, if_true, ite_true]
    congr 1
    try omega
  | case3 cur acc done blocks n h t hc1 hc2 =>
    intro _ _ _
    have hns : notStore h = false := by simp [notStore, hc2]
    rw [elimLoadGo, if_neg hc1, if_pos hc2]
    simp [r4Elims, List.takeWhile_cons, hns, List.dropWhile_cons]
  | case4 cur acc done blocks n h t hc1 hc2 ih =>
    intro hcur hld hid
    have hnm : r4Match cur h = false := by
      rw [r4Match, decide_eq_false_iff_not]
      exact hc1
    have hns : notStore h = true := by simp [notStore, hc2]
    rw [elimLoadGo, if_neg hc1, if_neg hc2]
    rw [ih (fun I hI hm => hcur I (by simp [hI]) hm)
        (fun I hI hm J hJ hL => hld I (by simp [hI]) hm J (by simp [hJ]) hL)
        (fun I hI hm => hid I (by simp [hI]) hm)]
    have hE : r4Elims cur (h :: t) = r4Elims cur t := by
      simp [r4Elims, List.takeWhile_cons, hns, List.filter_cons, hnm]
    rw [hE]
    simp only [List.takeWhile_cons, hns, if_true, List.filter_cons, hnm,
      Bool.not_false, List.dropWhile_cons, List.countP_cons]
    congr 1
    simp [List.append_assoc]

@[simp] theorem substL_append (es : List Nat) (v : Val) (a b : List Instr) :
    substL es v (a ++ b) = substL es v a ++ substL es v b := by
  simp [substL]

theorem isDead_false (u : Bool) (I : Instr)
    (h : trivDeadOpcode I.opcode = false) : isDead u I = false := by
  unfold isDead
  split <;> simp [h]

theorem r3Step_of_invalid (cfg : List (List Nat)) (bi : Nat) (cur : Instr)
    (tail done : List Instr) (blocks : List BB)
    (h : isValidForCSE cur = false) :
    r3Step cfg bi cur tail done blocks =
      { cur := cur, kept := tail, done := done, blocks := blocks,
        nPrim := 0 } := by
  unfold r3Step
  rw [if_neg (by simp [h])]

/-- Claim C5: with a Load at the cursor (and the simplifier declining), the
driver runs R4: the scan erases exactly the non-volatile loads with the
current load's pointer operand and result type that precede the first store
of any kind, bumps `CSELdElim` once per erased load, redirects every use of
an erased load to the current load, stops at the first store (volatile or
not) and leaves everything from that store on in place (up to the use
redirections); calls and all other instructions are passed over.  The
aliasing hypotheses say that no erased load's value is used as another
scanned load's pointer, by the current load, or under a duplicated id —
automatically true of well-formed SSA. -/
theorem c5_load_scan (simpF : Instr → Option Val) (cfg : List (List Nat))
    (bi : Nat) (cur : Instr) (tail done : List Instr) (blocks : List BB)
    (cnt : Counters)
    (hop : cur.opcode = .Load)
    (hsimp : simpF cur = none)
    (hcur : ∀ I ∈ tail, r4Match cur I = true → I.id ∉ operandIds cur)
    (hld : ∀ I ∈ tail, r4Match cur I = true →
      ∀ J ∈ tail, J.opcode = .Load → I.id ∉ operandIds J)
    (hid : ∀ I ∈ tail, r4Match cur I = true → I.id ≠ cur.id) :
    driveStep simpF cfg bi cur tail done blocks cnt =
      { rest := substL (r4Elims cur tail) (valOf cur)
          ((tail.takeWhile notStore).filter (fun I => !r4Match cur I) ++
            tail.dropWhile notStore),
        done := substL (r4Elims cur tail) (valOf cur) done ++ [cur],
        blocks := substBs (r4Elims cur tail) (valOf cur) blocks,
        cnt := { cnt with cseLdElim :=
          cnt.cseLdElim + (tail.takeWhile notStore).countP (r4Match cur) } } := by
  have htriv : trivDeadOpcode cur.opcode = false := by rw [hop]; rfl
  have hvalid : isValidForCSE cur = false := by simp [isValidForCSE, hop]
  have hchar := elimLoadGo_char cur [] tail done blocks 0 hcur hld hid
  unfold driveStep
  rw [if_neg (by simp [isDead_false _ cur htriv])]
  simp only [hsimp]
  rw [r3Step_of_invalid cfg bi cur tail done blocks hvalid]
  dsimp only
  rw [show r4Step cur tail done blocks = elimLoadGo cur [] tail done blocks 0 from
    by unfold r4Step; rw [if_pos hop]]
  rw [hchar]
  dsimp only
  rw [if_neg (by rw [hop]; simp)]
  congr 1
  · simp
  · congr 1 <;> omega

/-- Witness inputs for C5: a non-volatile load at the cursor, followed by a
call (passed over), a matching load (erased, its use in the add redirected),
a volatile load of the same pointer (kept), an add using the matching load,
a volatile store (stops the scan), and a matching load after the store
(kept). -/
def c5cur : Instr := ⟨10, .Load, 1, [⟨7, 9⟩], false, 0⟩

def c5tail : List Instr :=
  [⟨20, .Call, 2, [], false, 0⟩,
   ⟨11, .Load, 1, [⟨7, 9⟩], false, 0⟩,
   ⟨12, .Load, 1, [⟨7, 9⟩], true, 0⟩,
   ⟨13, .Add, 1, [⟨11, 1⟩, ⟨11, 1⟩], false, 0⟩,
   ⟨14, .Store, 0, [⟨3, 1⟩, ⟨8, 9⟩], true, 0⟩,
   ⟨15, .Load, 1, [⟨7, 9⟩], false, 0⟩]

/-- Witness for C5 at the concrete inputs above. -/
theorem c5_load_scan_witness :
    ((∀ I ∈ c5tail, r4Match c5cur I = true → I.id ∉ operandIds c5cur) ∧
     (∀ I ∈ c5tail, r4Match c5cur I = true →
       ∀ J ∈ c5tail, J.opcode = .Load → I.id ∉ operandIds J) ∧
     (∀ I ∈ c5tail, r4Match c5cur I = true → I.id ≠ c5cur.id)) ∧
    driveStep simplifyNone [] 0 c5cur c5tail [] [] czero =
      { rest := substL (r4Elims c5cur c5tail) (valOf c5cur)
          ((c5tail.takeWhile notStore).filter (fun I => !r4Match c5cur I) ++
            c5tail.dropWhile notStore),
        done := substL (r4Elims c5cur c5tail) (valOf c5cur) [] ++ [c5cur],
        blocks := substBs (r4Elims c5cur c5tail) (valOf c5cur) [],
        cnt := { czero with cseLdElim := czero.cseLdElim +
          (c5tail.takeWhile notStore).countP (r4Match c5cur) } } :=
  ⟨⟨by decide, by decide, by decide⟩,
   c5_load_scan simplifyNone [] 0 c5cur c5tail [] [] czero rfl rfl
     (by decide) (by decide) (by decide)⟩

/-- The rauw-invariant skeleton of an instruction: everything except its
operand list. -/
def skel (I : Instr) : Nat × Opcode × Nat × Bool × Nat :=
  (I.id, I.opcode, I.ty, I.isVolatile, I.flags)

@[simp] theorem skel_rauwI (e : Nat) (v : Val) (I : Instr) :
    skel (rauwI e v I) = skel I := rfl

theorem skelL_rauwL (e : Nat) (v : Val) (l : List Instr) :
    (rauwL e v l).map skel = l.map skel := by
  simp [rauwL, List.map_map, Function.comp]

theorem elimLoadGo_shape (cur : Instr) (acc rest done : List Instr)
    (blocks : List BB) (n : Nat) :
    skel (elimLoadGo cur acc rest done blocks n).cur = skel cur ∧
    (elimLoadGo cur acc rest done blocks n).done.map skel = done.map skel ∧
    (∀ I, (I ∈ acc ∨ (I ∈ rest ∧ ¬(I.opcode = .Load ∧ I.isVolatile = false))) →
      skel I ∈ ((elimLoadGo cur acc rest done blocks n).kept ++
        (elimLoadGo cur acc rest done blocks n).stop).map skel) := by
  induction cur, acc, rest, done, blocks, n using elimLoadGo.induct with
  | case1 cur acc done blocks n =>
    rw [elimLoadGo]
    refine ⟨rfl, rfl, ?_⟩
    intro I hI
    rcases hI with hI | hI
    · exact List.mem_map.mpr ⟨I, by simpa using hI, rfl⟩
    · simp at hI
  | case2 cur acc done blocks n h t hc ih =>
    rw [elimLoadGo, if_pos hc]
    obtain ⟨i1, i2, i3⟩ := ih
    refine ⟨by rw [i1]; rfl, by rw [i2, skelL_rauwL], ?_⟩
    intro I hI
    rcases hI with hI | ⟨hI, hsh⟩
    · have hmem : rauwI h.id (valOf cur) I ∈ rauwL h.id (valOf cur) acc :=
        List.mem_map.mpr ⟨I, hI, rfl⟩
      have := i3 (rauwI h.id (valOf cur) I) (Or.inl hmem)
      simpa using this
    · rcases List.mem_cons.mp hI with rfl | hI'
      · exact absurd ⟨hc.1, hc.2.1⟩ hsh
      · have hmem : rauwI h.id (valOf cur) I ∈ rauwL h.id (valOf cur) t :=
          List.mem_map.mpr ⟨I, hI', rfl⟩
        have := i3 (rauwI h.id (valOf cur) I)
          (Or.inr ⟨hmem, by simpa using hsh⟩)
        simpa using this
  | case3 cur acc done blocks n h t hc1 hc2 =>
    rw [elimLoadGo, if_neg hc1, if_pos hc2]
    refine ⟨rfl, rfl, ?_⟩
    intro I hI
    rcases hI with hI | ⟨hI, _⟩
    · exact List.mem_map.mpr ⟨I, List.mem_append.mpr (Or.inl hI), rfl⟩
    · exact List.mem_map.mpr ⟨I, List.mem_append.mpr (Or.inr hI), rfl⟩
  | case4 cur acc done blocks n h t hc1 hc2 ih =>
    rw [elimLoadGo, if_neg hc1, if_neg hc2]
    obtain ⟨i1, i2, i3⟩ := ih
    refine ⟨i1, i2, ?_⟩
    intro I hI
    rcases hI with hI | ⟨hI, hsh⟩
    · exact i3 I (Or.inl (by simp [hI]))
    · rcases List.mem_cons.mp hI with rfl | hI'
      · exact i3 I (Or.inl (by simp))
      · exact i3 I (Or.inr ⟨hI', hsh⟩)

theorem skelL_substL (es : List Nat) (v : Val) (l : List Instr) :
    (substL es v l).map skel = l.map skel := by
  simp only [substL, List.map_map]
  apply List.map_congr_left
  intro I _
  rfl

/-- Claim C1 (amended): the driver dispatches to R4 for every Load at the
cursor — `eliminateLoad` never checks the cursor's own volatility.  Under
the SSA aliasing hypotheses the step is fully characterised: exactly the
later non-volatile loads with the cursor's pointer operand and result type
that precede the first store are erased, and every non-matching later
instruction — volatile loads included — survives into the remainder; each
erasure bumps `CSELdElim` once and redirects the erased load's uses to the
cursor, the other five counters do not move, and the cursor load itself
survives, appended to the processed prefix. -/
theorem c1_load_rule_amended (simpF : Instr → Option Val)
    (cfg : List (List Nat)) (bi : Nat) (cur : Instr) (tail done : List Instr)
    (blocks : List BB) (cnt : Counters)
    (hop : cur.opcode = .Load) (hsimp : simpF cur = none)
    (hcur : ∀ I ∈ tail, r4Match cur I = true → I.id ∉ operandIds cur)
    (hld : ∀ I ∈ tail, r4Match cur I = true →
      ∀ J ∈ tail, J.opcode = .Load → I.id ∉ operandIds J)
    (hid : ∀ I ∈ tail, r4Match cur I = true → I.id ≠ cur.id) :
    driveStep simpF cfg bi cur tail done blocks cnt =
      { rest := substL (r4Elims cur tail) (valOf cur)
          ((tail.takeWhile notStore).filter (fun I => !r4Match cur I) ++
            tail.dropWhile notStore),
        done := substL (r4Elims cur tail) (valOf cur) done ++ [cur],
        blocks := substBs (r4Elims cur tail) (valOf cur) blocks,
        cnt := { cnt with cseLdElim := cnt.cseLdElim +
          (tail.takeWhile notStore).countP (r4Match cur) } } ∧
    (∀ I ∈ tail, r4Match cur I = false →
      skel I ∈
        (driveStep simpF cfg bi cur tail done blocks cnt).rest.map skel) := by
  have htriv : trivDeadOpcode cur.opcode = false := by rw [hop]; rfl
  have hvalid : isValidForCSE cur = false := by simp [isValidForCSE, hop]
  have hchar := elimLoadGo_char cur [] tail done blocks 0 hcur hld hid
  have heq : driveStep simpF cfg bi cur tail done blocks cnt =
      { rest := substL (r4Elims cur tail) (valOf cur)
          ((tail.takeWhile notStore).filter (fun I => !r4Match cur I) ++
            tail.dropWhile notStore),
        done := substL (r4Elims cur tail) (valOf cur) done ++ [cur],
        blocks := substBs (r4Elims cur tail) (valOf cur) blocks,
        cnt := { cnt with cseLdElim := cnt.cseLdElim +
          (tail.takeWhile notStore).countP (r4Match cur) } } := by
    unfold driveStep
    rw [if_neg (by simp [isDead_false _ cur htriv])]
    simp only [hsimp]
    rw [r3Step_of_invalid cfg bi cur tail done blocks hvalid]
    dsimp only
    rw [show r4Step cur tail done blocks =
        elimLoadGo cur [] tail done blocks 0 from
      by unfold r4Step; rw [if_pos hop]]
    rw [hchar]
    dsimp only
    rw [if_neg (by rw [hop]; simp)]
    congr 1
    · simp
    · congr 1 <;> omega
  refine ⟨heq, ?_⟩
  intro I hI hnm
  rw [heq]
  dsimp only
  rw [skelL_substL]
  have hI' : I ∈ tail.takeWhile notStore ++ tail.dropWhile notStore := by
    rw [List.takeWhile_append_dropWhile]
    exact hI
  apply List.mem_map.mpr
  refine ⟨I, ?_, rfl⟩
  rcases List.mem_append.mp hI' with h1 | h2
  · exact List.mem_append.mpr (Or.inl (List.mem_filter.mpr ⟨h1, by simp [hnm]⟩))
  · exact List.mem_append.mpr (Or.inr h2)

/-- Witness inputs for C1: the cursor load is volatile; a matching
non-volatile load of the same pointer follows (erased), then a volatile
load of the same pointer (non-matching: kept) and a return. -/
def c1cur : Instr := ⟨10, .Load, 1, [⟨7, 9⟩], true, 0⟩

def c1tail : List Instr :=
  [⟨11, .Load, 1, [⟨7, 9⟩], false, 0⟩,
   ⟨12, .Load, 1, [⟨7, 9⟩], true, 0⟩,
   ⟨13, .Ret, 0, [], false, 0⟩]

/-- Witness for C1 (amended) at concrete inputs whose cursor load is
volatile. -/
theorem c1_load_rule_amended_witness :
    (c1cur.isVolatile = true ∧
     (∀ I ∈ c1tail, r4Match c1cur I = true → I.id ∉ operandIds c1cur) ∧
     (∀ I ∈ c1tail, r4Match c1cur I = true →
       ∀ J ∈ c1tail, J.opcode = .Load → I.id ∉ operandIds J) ∧
     (∀ I ∈ c1tail, r4Match c1cur I = true → I.id ≠ c1cur.id)) ∧
    (driveStep simplifyNone [] 0 c1cur c1tail [] [] czero =
      { rest := substL (r4Elims c1cur c1tail) (valOf c1cur)
          ((c1tail.takeWhile notStore).filter (fun I => !r4Match c1cur I) ++
            c1tail.dropWhile notStore),
        done := substL (r4Elims c1cur c1tail) (valOf c1cur) [] ++ [c1cur],
        blocks := substBs (r4Elims c1cur c1tail) (valOf c1cur) [],
        cnt := { czero with cseLdElim := czero.cseLdElim +
          (c1tail.takeWhile notStore).countP (r4Match c1cur) } } ∧
     (∀ I ∈ c1tail, r4Match c1cur I = false →
       skel I ∈ (driveStep simplifyNone [] 0 c1cur c1tail [] []
         czero).rest.map skel)) :=
  ⟨⟨rfl, by decide, by decide, by decide⟩,
   c1_load_rule_amended simplifyNone [] 0 c1cur c1tail [] [] czero rfl rfl
     (by decide) (by decide) (by decide)⟩

/-- A module whose first instruction is a volatile load followed by a
non-volatile load of the same pointer. -/
def c1Mod : IRModule :=
  [⟨[⟨[⟨10, .Load, 1, [⟨7, 9⟩], true, 0⟩,
       ⟨11, .Load, 1, [⟨7, 9⟩], false, 0⟩,
       ⟨12, .Ret, 0, [], false, 0⟩], []⟩]⟩]

unseal sameBBGo domScanGo elimLoadGo elimStoreGo runInsts runBlocksFrom in
/-- Counterexample to claim C1 as stated: on `c1Mod` the cursor load is
volatile, yet the later non-volatile load is erased and `CSELdElim` is
incremented — the precondition the claim states is not checked by the
code (`eliminateLoad` tests only the later load's volatility). -/
theorem c1_counterexample :
    ((⟨10, .Load, 1, [⟨7, 9⟩], true, 0⟩ : Instr).opcode = .Load ∧
     (⟨10, .Load, 1, [⟨7, 9⟩], true, 0⟩ : Instr).isVolatile = true) ∧
    (CommonSubexpressionElimination simplifyNone c1Mod czero).2.cseLdElim = 1 ∧
    ¬((CommonSubexpressionElimination simplifyNone c1Mod czero).2.cseLdElim = 0) ∧
    (CommonSubexpressionElimination simplifyNone c1Mod czero).1 =
      [⟨[⟨[⟨10, .Load, 1, [⟨7, 9⟩], true, 0⟩,
           ⟨12, .Ret, 0, [], false, 0⟩], []⟩]⟩] := by
  decide

/-!  The static classifiers of the R5 scan (`eliminateStore`). -/

/-- A later load R5 forwards the stored value to: a non-volatile load of the
stored-to pointer whose result type equals the stored value's type. -/
def r5Fwd (cur I : Instr) : Bool :=
  decide (I.opcode = .Load ∧ I.isVolatile = false ∧ opnd I 0 = opnd cur 1 ∧
          I.ty = (opnd cur 0).ty)

/-- A later store that kills the (non-volatile) current store: same pointer
operand, value operand of the same type. -/
def r5Kill (cur I : Instr) : Bool :=
  decide (I.opcode = .Store ∧ opnd I 1 = opnd cur 1 ∧ cur.isVolatile = false ∧
          (opnd I 0).ty = (opnd cur 0).ty)

/-- An instruction that stops the R5 scan: any load, store, call, or
side-effecting instruction (checked after the two cases above). -/
def r5Brk (I : Instr) : Bool :=
  decide (I.opcode = .Load ∨ I.opcode = .Store ∨ I.opcode = .Call ∨
          mayHaveSideEffects I = true)

/-- The scan continues past `I`: it is forwarded, or neither kills nor
breaks. -/
def r5Cont (cur I : Instr) : Bool := r5Fwd cur I || (!r5Kill cur I && !r5Brk I)

/-- The ids of the loads R5 forwards and erases. -/
def r5Elims (cur : Instr) (rest : List Instr) : List Nat :=
  ((rest.takeWhile (r5Cont cur)).filter (r5Fwd cur)).map (fun I => I.id)

/-- Whether the scan ends by killing the current store: the first
non-continue instruction is a killing store. -/
def r5Killed (cur : Instr) (rest : List Instr) : Bool :=
  match (rest.dropWhile (r5Cont cur)).head? with
  | some h => r5Kill cur h
  | none => false

theorem r5Elims_mem {cur : Instr} {rest : List Instr} {x : Nat}
    (h : x ∈ r5Elims cur rest) :
    ∃ I, I ∈ rest ∧ r5Fwd cur I = true ∧ I.id = x := by
  simp only [r5Elims, List.mem_map, List.mem_filter] at h
  obtain ⟨I, ⟨hIw, hIm⟩, hid⟩ := h
  exact ⟨I, (List.takeWhile_prefix (r5Cont cur)).subset hIw, hIm, hid⟩

@[simp] theorem mayHaveSideEffects_rauwI (e : Nat) (v : Val) (J : Instr) :
    mayHaveSideEffects (rauwI e v J) = mayHaveSideEffects J := rfl

theorem r5Fwd_rauwI (cur J : Instr) (e : Nat) (v : Val)
    (hJ : J.opcode = .Load → e ∉ operandIds J) :
    r5Fwd cur (rauwI e v J) = r5Fwd cur J := by
  by_cases hL : J.opcode = .Load
  · rw [rauwI_noop e v J (hJ hL)]
  · simp [r5Fwd, hL]

theorem r5Kill_rauwI (cur J : Instr) (e : Nat) (v : Val)
    (hJ : J.opcode = .Store → e ∉ operandIds J) :
    r5Kill cur (rauwI e v J) = r5Kill cur J := by
  by_cases hS : J.opcode = .Store
  · rw [rauwI_noop e v J (hJ hS)]
  · simp [r5Kill, hS]

@[simp] theorem r5Brk_rauwI (J : Instr) (e : Nat) (v : Val) :
    r5Brk (rauwI e v J) = r5Brk J := by
  simp [r5Brk]

theorem r5Cont_rauwI (cur J : Instr) (e : Nat) (v : Val)
    (hJ : (J.opcode = .Load ∨ J.opcode = .Store) → e ∉ operandIds J) :
    r5Cont cur (rauwI e v J) = r5Cont cur J := by
  unfold r5Cont
  rw [r5Fwd_rauwI cur J e v (fun hL => hJ (Or.inl hL)),
      r5Kill_rauwI cur J e v (fun hS => hJ (Or.inr hS)), r5Brk_rauwI]

theorem r5Elims_rauwL (cur : Instr) (e : Nat) (v : Val) (t : List Instr)
    (hls : ∀ J ∈ t, (J.opcode = .Load ∨ J.opcode = .Store) → e ∉ operandIds J) :
    r5Elims cur (rauwL e v t) = r5Elims cur t := by
  unfold r5Elims rauwL
  rw [takeWhile_map_congr _ _ t
    (fun J hJ => r5Cont_rauwI cur J e v (fun hl => hls J hJ hl))]
  rw [filter_map_congr _ _ (t.takeWhile (r5Cont cur))
    (fun J hJ => r5Fwd_rauwI cur J e v
      (fun hL => hls J ((List.takeWhile_prefix (r5Cont cur)).subset hJ) (Or.inl hL)))]
  simp [List.map_map, Function.comp]

theorem r5Killed_rauwL (cur : Instr) (e : Nat) (v : Val) (t : List Instr)
    (hls : ∀ J ∈ t, (J.opcode = .Load ∨ J.opcode = .Store) → e ∉ operandIds J) :
    r5Killed cur (rauwL e v t) = r5Killed cur t := by
  unfold r5Killed
  rw [show (rauwL e v t).dropWhile (r5Cont cur) =
      rauwL e v (t.dropWhile (r5Cont cur)) from
    dropWhile_map_congr _ _ t
      (fun J hJ => r5Cont_rauwI cur J e v (fun hl => hls J hJ hl))]
  cases hd : t.dropWhile (r5Cont cur) with
  | nil => rfl
  | cons h t2 =>
    simp only [rauwL, List.map_cons, List.head?_cons]
    have hmem : h ∈ t := by
      have : h ∈ t.dropWhile (r5Cont cur) := by rw [hd]; simp
      exact (List.dropWhile_suffix (r5Cont cur)).subset this
    rw [r5Kill_rauwI cur h e v (fun hS => hls h hmem (Or.inr hS))]

theorem elimStoreGo_char (cur : Instr) (acc rest done : List Instr)
    (blocks : List BB) (n : Nat) :
    (∀ I ∈ rest, r5Fwd cur I = true → I.id ∉ operandIds cur) →
    (∀ I ∈ rest, r5Fwd cur I = true →
      ∀ J ∈ rest, (J.opcode = .Load ∨ J.opcode = .Store) → I.id ∉ operandIds J) →
    (∀ I ∈ rest, r5Fwd cur I = true → I.id ≠ (opnd cur 0).id) →
    elimStoreGo cur acc rest done blocks n =
      { cur := cur,
        kept := substL (r5Elims cur rest) (opnd cur 0)
          (acc ++ (rest.takeWhile (r5Cont cur)).filter (fun I => !r5Fwd cur I)),
        stop := substL (r5Elims cur rest) (opnd cur 0)
          (rest.dropWhile (r5Cont cur)),
        done := substL (r5Elims cur rest) (opnd cur 0) done,
        blocks := substBs (r5Elims cur rest) (opnd cur 0) blocks,
        nPrim := n + (rest.takeWhile (r5Cont cur)).countP (r5Fwd cur),
        nSec := if r5Killed cur rest then 1 else 0,
        killed := r5Killed cur rest } := by
  induction cur, acc, rest, done, blocks, n using elimStoreGo.induct with
  | case1 cur acc done blocks n =>
    intro _ _ _
    simp [elimStoreGo, r5Elims, r5Killed]
  | case2 cur acc done blocks n h t hc ih =>
    intro hcur hls hvid
    have hfwd : r5Fwd cur h = true := by
      simp only [r5Fwd, decide_eq_true_eq]
      exact hc
    have hmem : h ∈ h :: t := by simp
    have hcureq : rauwI h.id (opnd cur 0) cur = cur :=
      rauwI_noop _ _ _ (hcur h hmem hfwd)
    have hlst : ∀ J ∈ t, (J.opcode = .Load ∨ J.opcode = .Store) →
        h.id ∉ operandIds J :=
      fun J hJ hl => hls h hmem hfwd J (by simp [hJ]) hl
    rw [hcureq] at ih
    rw [elimStoreGo, if_pos hc, hcureq]
    have hcur' : ∀ I ∈ rauwL h.id (opnd cur 0) t, r5Fwd cur I = true →
        I.id ∉ operandIds cur := by
      intro I hI hm
      obtain ⟨I0, hI0, rfl⟩ := List.mem_map.mp hI
      rw [r5Fwd_rauwI cur I0 h.id (opnd cur 0)
        (fun hL => hlst I0 hI0 (Or.inl hL))] at hm
      simpa using hcur I0 (by simp [hI0]) hm
    have hls' : ∀ I ∈ rauwL h.id (opnd cur 0) t, r5Fwd cur I = true →
        ∀ J ∈ rauwL h.id (opnd cur 0) t,
          (J.opcode = .Load ∨ J.opcode = .Store) → I.id ∉ operandIds J := by
      intro I hI hm J hJ hL
      obtain ⟨I0, hI0, rfl⟩ := List.mem_map.mp hI
      obtain ⟨J0, hJ0, rfl⟩ := List.mem_map.mp hJ
      rw [r5Fwd_rauwI cur I0 h.id (opnd cur 0)
        (fun hL0 => hlst I0 hI0 (Or.inl hL0))] at hm
      have hL0 : J0.opcode = .Load ∨ J0.opcode = .Store := by simpa using hL
      rw [rauwI_noop _ _ _ (hlst J0 hJ0 hL0)]
      simpa using hls I0 (by simp [hI0]) hm J0 (by simp [hJ0]) hL0
    have hvid' : ∀ I ∈ rauwL h.id (opnd cur 0) t, r5Fwd cur I = true →
        I.id ≠ (opnd cur 0).id := by
      intro I hI hm
      obtain ⟨I0, hI0, rfl⟩ := List.mem_map.mp hI
      rw [r5Fwd_rauwI cur I0 h.id (opnd cur 0)
        (fun hL => hlst I0 hI0 (Or.inl hL))] at hm
      simpa using hvid I0 (by simp [hI0]) hm
    rw [ih hcur' hls' hvid']
    have hE : r5Elims cur (rauwL h.id (opnd cur 0) t) = r5Elims cur t :=
      r5Elims_rauwL cur h.id (opnd cur 0) t hlst
    have hvE : (opnd cur 0).id ∉ r5Elims cur t := by
      intro hmem2
      obtain ⟨I, hIt, hIm, hIid⟩ := r5Elims_mem hmem2
      exact hvid I (by simp [hIt]) hIm hIid
    have htw : (rauwL h.id (opnd cur 0) t).takeWhile (r5Cont cur) =
        rauwL h.id (opnd cur 0) (t.takeWhile (r5Cont cur)) :=
      takeWhile_map_congr _ _ t
        (fun J hJ => r5Cont_rauwI cur J h.id (opnd cur 0) (fun hl => hlst J hJ hl))
    have hdw : (rauwL h.id (opnd cur 0) t).dropWhile (r5Cont cur) =
        rauwL h.id (opnd cur 0) (t.dropWhile (r5Cont cur)) :=
      dropWhile_map_congr _ _ t
        (fun J hJ => r5Cont_rauwI cur J h.id (opnd cur 0) (fun hl => hlst J hJ hl))
    have hfl : ((rauwL h.id (opnd cur 0) t).takeWhile (r5Cont cur)).filter
          (fun I => !r5Fwd cur I) =
        rauwL h.id (opnd cur 0)
          ((t.takeWhile (r5Cont cur)).filter (fun I => !r5Fwd cur I)) := by
      rw [htw]
      exact filter_map_congr _ _ (t.takeWhile (r5Cont cur))
        (fun J hJ => by
          rw [r5Fwd_rauwI cur J h.id (opnd cur 0)
            (fun hL => hlst J ((List.takeWhile_prefix (r5Cont cur)).subset hJ)
              (Or.inl hL))])
    have hcp : ((rauwL h.id (opnd cur 0) t).takeWhile (r5Cont cur)).countP
          (r5Fwd cur) = (t.takeWhile (r5Cont cur)).countP (r5Fwd cur) := by
      rw [htw]
      exact countP_map_congr _ _ (t.takeWhile (r5Cont cur))
        (fun J hJ => r5Fwd_rauwI cur J h.id (opnd cur 0)
          (fun hL => hlst J ((List.takeWhile_prefix (r5Cont cur)).subset hJ)
            (Or.inl hL)))
    have hkd : r5Killed cur (rauwL h.id (opnd cur 0) t) = r5Killed cur t :=
      r5Killed_rauwL cur h.id (opnd cur 0) t hlst
    rw [hE, hfl, hdw, hcp, hkd]
    have hcont : r5Cont cur h = true := by simp [r5Cont, hfwd]
    have hEc : r5Elims cur (h :: t) = h.id :: r5Elims cur t := by
      simp [r5Elims, List.takeWhile_cons, hcont, List.filter_cons, hfwd]
    have hkdc : r5Killed cur (h :: t) = r5Killed cur t := by
      simp [r5Killed, List.dropWhile_cons, hcont]
    have happ : rauwL h.id (opnd cur 0) acc ++
        rauwL h.id (opnd cur 0)
          ((t.takeWhile (r5Cont cur)).filter (fun I => !r5Fwd cur I)) =
        rauwL h.id (opnd cur 0)
          (acc ++ (t.takeWhile (r5Cont cur)).filter (fun I => !r5Fwd cur I)) := by
      simp [rauwL]
    rw [happ, substL_rauwL h.id _ _ hvE, substL_rauwL h.id _ _ hvE,
        substL_rauwL h.id _ _ hvE, substBs_rauwBs h.id _ _ hvE, hEc, hkdc]
    simp only [List.takeWhile_cons, hcont, List.filter_cons, hfwd,
      Bool.not_true, List.dropWhile_cons, List.countP_cons, if_true, ite_true]
    congr 1
    try omega
  | case3 cur acc done blocks n h t hc1 hc2 =>
    intro _ _ _
    have hnf : r5Fwd cur h = false := by
      rw [r5Fwd, decide_eq_false_iff_not]
      exact hc1
    have hk : r5Kill cur h = true := by
      simp only [r5Kill, decide_eq_true_eq]
      exact hc2
    have hcont : r5Cont cur h = false := by simp [r5Cont, hnf, hk]
    have hkd : r5Killed cur (h :: t) = true := by
      simp [r5Killed, List.dropWhile_cons, hcont, hk]
    rw [elimStoreGo, if_neg hc1, if_pos hc2]
    simp [r5Elims, List.takeWhile_cons, hcont, List.dropWhile_cons, hkd]
  | case4 cur acc done blocks n h t hc1 hc2 hc3 =>
    intro _ _ _
    have hnf : r5Fwd cur h = false := by
      rw [r5Fwd, decide_eq_false_iff_not]
      exact hc1
    have hnk : r5Kill cur h = false := by
      rw [r5Kill, decide_eq_false_iff_not]
      exact hc2
    have hbrk : r5Brk h = true := by
      simp only [r5Brk, decide_eq_true_eq]
      exact hc3
    have hcont : r5Cont cur h = false := by simp [r5Cont, hnf, hnk, hbrk]
    have hkd : r5Killed cur (h :: t) = false := by
      simp [r5Killed, List.dropWhile_cons, hcont, hnk]
    rw [elimStoreGo, if_neg hc1, if_neg hc2, if_pos hc3]
    simp [r5Elims, List.takeWhile_cons, hcont, List.dropWhile_cons, hkd]
  | case5 cur acc done blocks n h t hc1 hc2 hc3 ih =>
    intro hcur hls hvid
    have hnf : r5Fwd cur h = false := by
      rw [r5Fwd, decide_eq_false_iff_not]
      exact hc1
    have hnk : r5Kill cur h = false := by
      rw [r5Kill, decide_eq_false_iff_not]
      exact hc2
    have hnb : r5Brk h = false := by
      rw [r5Brk, decide_eq_false_iff_not]
      exact hc3
    have hcont : r5Cont cur h = true := by simp [r5Cont, hnf, hnk, hnb]
    rw [elimStoreGo, if_neg hc1, if_neg hc2, if_neg hc3]
    rw [ih (fun I hI hm => hcur I (by simp [hI]) hm)
        (fun I hI hm J hJ hL => hls I (by simp [hI]) hm J (by simp [hJ]) hL)
        (fun I hI hm => hvid I (by simp [hI]) hm)]
    have hE : r5Elims cur (h :: t) = r5Elims cur t := by
      simp [r5Elims, List.takeWhile_cons, hcont, List.filter_cons, hnf]
    have hkdc : r5Killed cur (h :: t) = r5Killed cur t := by
      simp [r5Killed, List.dropWhile_cons, hcont]
    rw [hE, hkdc]
    simp only [List.takeWhile_cons, hcont, List.filter_cons, hnf,
      Bool.not_false, List.dropWhile_cons, List.countP_cons, if_true, ite_true]
    congr 1
    simp [List.append_assoc]

theorem takeWhile_append_block {α : Type} (p : α → Bool) (pre : List α)
    (y : α) (t : List α) (h1 : ∀ x ∈ pre, p x = true) (h2 : p y = false) :
    (pre ++ y :: t).takeWhile p = pre ∧ (pre ++ y :: t).dropWhile p = y :: t := by
  induction pre with
  | nil => simp [List.takeWhile_cons, List.dropWhile_cons, h2]
  | cons a pre ih =>
    have ha : p a = true := h1 a (by simp)
    obtain ⟨ih1, ih2⟩ := ih (fun x hx => h1 x (by simp [hx]))
    simp only [List.cons_append, List.takeWhile_cons, List.dropWhile_cons, ha,
      if_true, ite_true]
    exact ⟨by rw [ih1], by rw [ih2]⟩

theorem r4Step_of_store (cur : Instr) (tail done : List Instr)
    (blocks : List BB) (hop : cur.opcode = .Store) :
    r4Step cur tail done blocks =
      { cur := cur, kept := tail, done := done, blocks := blocks } := by
  unfold r4Step
  rw [if_neg (by rw [hop]; simp)]

/-- Claim C4: with a Store at the cursor (pointer operand `P`, value operand
`V`) and the simplifier declining, R5's scan forwards every non-volatile
load of `P` with result type `type(V)` that the scan reaches (redirecting
its uses to `V`, erasing it, bumping `CSEStore2Load`, and continuing past
it); the scan stops at the first non-continuing instruction, killing the
current store when that instruction is a matching store.  The aliasing
hypotheses say no forwarded load's value is used as a pointer of another
scanned load/store, by the current store, or under a duplicated id. -/
theorem c4_store_forwarding (simpF : Instr → Option Val)
    (cfg : List (List Nat)) (bi : Nat) (cur : Instr) (tail done : List Instr)
    (blocks : List BB) (cnt : Counters)
    (hop : cur.opcode = .Store)
    (hsimp : simpF cur = none)
    (hcur : ∀ I ∈ tail, r5Fwd cur I = true → I.id ∉ operandIds cur)
    (hls : ∀ I ∈ tail, r5Fwd cur I = true →
      ∀ J ∈ tail, (J.opcode = .Load ∨ J.opcode = .Store) → I.id ∉ operandIds J)
    (hvid : ∀ I ∈ tail, r5Fwd cur I = true → I.id ≠ (opnd cur 0).id) :
    driveStep simpF cfg bi cur tail done blocks cnt =
      if r5Killed cur tail then
        { rest := substL (r5Elims cur tail) (opnd cur 0)
            ((tail.takeWhile (r5Cont cur)).filter (fun I => !r5Fwd cur I) ++
              tail.dropWhile (r5Cont cur)),
          done := substL (r5Elims cur tail) (opnd cur 0) done,
          blocks := substBs (r5Elims cur tail) (opnd cur 0) blocks,
          cnt := { cnt with
            cseStore2Load := cnt.cseStore2Load +
              (tail.takeWhile (r5Cont cur)).countP (r5Fwd cur),
            cseStElim := cnt.cseStElim + 1 } }
      else
        { rest := substL (r5Elims cur tail) (opnd cur 0)
            ((tail.takeWhile (r5Cont cur)).filter (fun I => !r5Fwd cur I) ++
              tail.dropWhile (r5Cont cur)),
          done := substL (r5Elims cur tail) (opnd cur 0) done ++ [cur],
          blocks := substBs (r5Elims cur tail) (opnd cur 0) blocks,
          cnt := { cnt with
            cseStore2Load := cnt.cseStore2Load +
              (tail.takeWhile (r5Cont cur)).countP (r5Fwd cur) } } := by
  have htriv : trivDeadOpcode cur.opcode = false := by rw [hop]; rfl
  have hvalid : isValidForCSE cur = false := by simp [isValidForCSE, hop]
  have hchar := elimStoreGo_char cur [] tail done blocks 0 hcur hls hvid
  unfold driveStep
  rw [if_neg (by simp [isDead_false _ cur htriv])]
  simp only [hsimp]
  rw [r3Step_of_invalid cfg bi cur tail done blocks hvalid]
  dsimp only
  rw [r4Step_of_store cur tail done blocks hop]
  dsimp only
  rw [if_pos hop, List.append_nil, hchar]
  dsimp only
  split
  · congr 1
    · simp
    · congr 1 <;> omega
  · congr 1
    · simp
    · congr 1 <;> omega

/-- Claim C2: with a non-volatile Store at the cursor, when the scan runs
through instructions it continues past (`hpre`) and then reaches a later
store to the same pointer whose value operand has the same type, the
current store is erased, `CSEStElim` is bumped once, the scan stops (the
killing store and everything after it stay, up to use-redirections of the
previously forwarded loads), and the driver does not advance again: the
erased store is not appended to the processed prefix, and the new cursor
position is exactly the erased store's successor list, so the cursor stays
valid. -/
theorem c2_dead_store (simpF : Instr → Option Val) (cfg : List (List Nat))
    (bi : Nat) (cur : Instr) (pre : List Instr) (kst : Instr)
    (t2 done : List Instr) (blocks : List BB) (cnt : Counters)
    (hop : cur.opcode = .Store)
    (hsimp : simpF cur = none)
    (hpre : ∀ I ∈ pre, r5Cont cur I = true)
    (hkill : r5Kill cur kst = true)
    (hcur : ∀ I ∈ pre ++ kst :: t2, r5Fwd cur I = true → I.id ∉ operandIds cur)
    (hls : ∀ I ∈ pre ++ kst :: t2, r5Fwd cur I = true →
      ∀ J ∈ pre ++ kst :: t2, (J.opcode = .Load ∨ J.opcode = .Store) →
        I.id ∉ operandIds J)
    (hvid : ∀ I ∈ pre ++ kst :: t2, r5Fwd cur I = true →
      I.id ≠ (opnd cur 0).id) :
    driveStep simpF cfg bi cur (pre ++ kst :: t2) done blocks cnt =
      { rest := substL ((pre.filter (r5Fwd cur)).map (fun I => I.id))
          (opnd cur 0) (pre.filter (fun I => !r5Fwd cur I) ++ kst :: t2),
        done := substL ((pre.filter (r5Fwd cur)).map (fun I => I.id))
          (opnd cur 0) done,
        blocks := substBs ((pre.filter (r5Fwd cur)).map (fun I => I.id))
          (opnd cur 0) blocks,
        cnt := { cnt with
          cseStore2Load := cnt.cseStore2Load + pre.countP (r5Fwd cur),
          cseStElim := cnt.cseStElim + 1 } } := by
  have hso : kst.opcode = .Store := by
    have := hkill
    simp only [r5Kill, decide_eq_true_eq] at this
    exact this.1
  have hfwdk : r5Fwd cur kst = false := by
    rw [r5Fwd, decide_eq_false_iff_not]
    intro hcx
    rw [hso] at hcx
    exact Opcode.noConfusion hcx.1
  have hnc : r5Cont cur kst = false := by simp [r5Cont, hfwdk, hkill]
  obtain ⟨htw, hdw⟩ := takeWhile_append_block (r5Cont cur) pre kst t2 hpre hnc
  have hkd : r5Killed cur (pre ++ kst :: t2) = true := by
    unfold r5Killed
    rw [hdw]
    simp [hkill]
  have htriv : trivDeadOpcode cur.opcode = false := by rw [hop]; rfl
  have hvalid : isValidForCSE cur = false := by simp [isValidForCSE, hop]
  have hchar := elimStoreGo_char cur [] (pre ++ kst :: t2) done blocks 0
    hcur hls hvid
  unfold driveStep
  rw [if_neg (by simp [isDead_false _ cur htriv])]
  simp only [hsimp]
  rw [r3Step_of_invalid cfg bi cur (pre ++ kst :: t2) done blocks hvalid]
  dsimp only
  rw [r4Step_of_store cur (pre ++ kst :: t2) done blocks hop]
  dsimp only
  rw [if_pos hop, List.append_nil, hchar]
  dsimp only
  rw [if_pos (by rw [hkd])]
  unfold r5Elims
  rw [htw, hdw]
  congr 1
  · simp
  · congr 1
    all_goals first
      | omega
      | (simp [hkd]; try omega)

/-- Witness inputs for C4: a non-volatile store of `V = (3 : ty 1)` to
pointer `7`; the scan passes an add, forwards a matching load (whose use in
the next add is redirected to `V`), stops at a call, and leaves the load
after the call alone. -/
def c4cur : Instr := ⟨10, .Store, 0, [⟨3, 1⟩, ⟨7, 9⟩], false, 0⟩

def c4tail : List Instr :=
  [⟨20, .Add, 1, [⟨3, 1⟩, ⟨3, 1⟩], false, 0⟩,
   ⟨11, .Load, 1, [⟨7, 9⟩], false, 0⟩,
   ⟨12, .Add, 1, [⟨11, 1⟩, ⟨11, 1⟩], false, 0⟩,
   ⟨13, .Call, 2, [], false, 0⟩,
   ⟨14, .Load, 1, [⟨7, 9⟩], false, 0⟩]

/-- Witness for C4 at the concrete inputs above. -/
theorem c4_store_forwarding_witness :
    ((∀ I ∈ c4tail, r5Fwd c4cur I = true → I.id ∉ operandIds c4cur) ∧
     (∀ I ∈ c4tail, r5Fwd c4cur I = true →
       ∀ J ∈ c4tail, (J.opcode = .Load ∨ J.opcode = .Store) →
         I.id ∉ operandIds J) ∧
     (∀ I ∈ c4tail, r5Fwd c4cur I = true → I.id ≠ (opnd c4cur 0).id)) ∧
    driveStep simplifyNone [] 0 c4cur c4tail [] [] czero =
      (if r5Killed c4cur c4tail then
        { rest := substL (r5Elims c4cur c4tail) (opnd c4cur 0)
            ((c4tail.takeWhile (r5Cont c4cur)).filter (fun I => !r5Fwd c4cur I) ++
              c4tail.dropWhile (r5Cont c4cur)),
          done := substL (r5Elims c4cur c4tail) (opnd c4cur 0) [],
          blocks := substBs (r5Elims c4cur c4tail) (opnd c4cur 0) [],
          cnt := { czero with
            cseStore2Load := czero.cseStore2Load +
              (c4tail.takeWhile (r5Cont c4cur)).countP (r5Fwd c4cur),
            cseStElim := czero.cseStElim + 1 } }
      else
        { rest := substL (r5Elims c4cur c4tail) (opnd c4cur 0)
            ((c4tail.takeWhile (r5Cont c4cur)).filter (fun I => !r5Fwd c4cur I) ++
              c4tail.dropWhile (r5Cont c4cur)),
          done := substL (r5Elims c4cur c4tail) (opnd c4cur 0) [] ++ [c4cur],
          blocks := substBs (r5Elims c4cur c4tail) (opnd c4cur 0) [],
          cnt := { czero with
            cseStore2Load := czero.cseStore2Load +
              (c4tail.takeWhile (r5Cont c4cur)).countP (r5Fwd c4cur) } }) :=
  ⟨⟨by decide, by decide, by decide⟩,
   c4_store_forwarding simplifyNone [] 0 c4cur c4tail [] [] czero rfl rfl
     (by decide) (by decide) (by decide)⟩

/-- Witness inputs for C2: the same store, a forwarded load and an add in
front, then a killing store to the same pointer with a same-typed value,
then a return. -/
def c2pre : List Instr :=
  [⟨11, .Load, 1, [⟨7, 9⟩], false, 0⟩,
   ⟨12, .Add, 1, [⟨11, 1⟩, ⟨11, 1⟩], false, 0⟩]

def c2kst : Instr := ⟨15, .Store, 0, [⟨4, 1⟩, ⟨7, 9⟩], false, 0⟩

/-- Witness for C2 at the concrete inputs above. -/
theorem c2_dead_store_witness :
    ((∀ I ∈ c2pre, r5Cont c4cur I = true) ∧
     r5Kill c4cur c2kst = true ∧
     (∀ I ∈ c2pre ++ c2kst :: [⟨16, .Ret, 0, [], false, 0⟩],
       r5Fwd c4cur I = true → I.id ∉ operandIds c4cur) ∧
     (∀ I ∈ c2pre ++ c2kst :: [⟨16, .Ret, 0, [], false, 0⟩],
       r5Fwd c4cur I = true →
       ∀ J ∈ c2pre ++ c2kst :: [⟨16, .Ret, 0, [], false, 0⟩],
         (J.opcode = .Load ∨ J.opcode = .Store) → I.id ∉ operandIds J) ∧
     (∀ I ∈ c2pre ++ c2kst :: [⟨16, .Ret, 0, [], false, 0⟩],
       r5Fwd c4cur I = true → I.id ≠ (opnd c4cur 0).id)) ∧
    driveStep simplifyNone [] 0 c4cur
        (c2pre ++ c2kst :: [⟨16, .Ret, 0, [], false, 0⟩]) [] [] czero =
      { rest := substL ((c2pre.filter (r5Fwd c4cur)).map (fun I => I.id))
          (opnd c4cur 0) (c2pre.filter (fun I => !r5Fwd c4cur I) ++
            c2kst :: [⟨16, .Ret, 0, [], false, 0⟩]),
        done := substL ((c2pre.filter (r5Fwd c4cur)).map (fun I => I.id))
          (opnd c4cur 0) [],
        blocks := substBs ((c2pre.filter (r5Fwd c4cur)).map (fun I => I.id))
          (opnd c4cur 0) [],
        cnt := { czero with
          cseStore2Load := czero.cseStore2Load + c2pre.countP (r5Fwd c4cur),
          cseStElim := czero.cseStElim + 1 } } :=
  ⟨⟨by decide, by decide, by decide, by decide, by decide⟩,
   c2_dead_store simplifyNone [] 0 c4cur c2pre c2kst
     [⟨16, .Ret, 0, [], false, 0⟩] [] [] czero rfl rfl
     (by decide) (by decide) (by decide) (by decide) (by decide)⟩

/-!  Substitution no-op and composition lemmas for the dominated-block
characterisation. -/

theorem substI_noop (es : List Nat) (v : Val) (I : Instr)
    (h : ∀ e ∈ es, e ∉ operandIds I) : substI es v I = I := by
  unfold substI
  have hall : ∀ o ∈ I.operands, substVal es v o = o := by
    intro o ho
    have : o.id ∉ es := by
      intro he
      exact h o.id he (by simp [operandIds]; exact ⟨o, ho, rfl⟩)
    simp [substVal, this]
  rw [map_self_of_eq _ _ hall]

theorem substI_substI (es1 es2 : List Nat) (v : Val) (I : Instr)
    (hv : v.id ∉ es2) : substI es2 v (substI es1 v I) = substI (es1 ++ es2) v I := by
  simp only [substI, List.map_map]
  congr 1
  apply List.map_congr_left
  intro o _
  simp only [Function.comp, substVal]
  by_cases h1 : o.id ∈ es1
  · simp [h1, hv]
  · by_cases h2 : o.id ∈ es2 <;> simp [h1, h2]

theorem substL_noop (es : List Nat) (v : Val) (l : List Instr)
    (h : ∀ I ∈ l, ∀ e ∈ es, e ∉ operandIds I) : substL es v l = l := by
  unfold substL
  apply map_self_of_eq
  intro I hI
  exact substI_noop es v I (fun e he => h I hI e he)

theorem substL_substL (es1 es2 : List Nat) (v : Val) (l : List Instr)
    (hv : v.id ∉ es2) :
    substL es2 v (substL es1 v l) = substL (es1 ++ es2) v l := by
  simp only [substL, List.map_map]
  apply List.map_congr_left
  intro I _
  exact substI_substI es1 es2 v I hv

/-- One basic block under simultaneous substitution. -/
def substB (es : List Nat) (v : Val) (b : BB) : BB :=
  { b with insts := substL es v b.insts }

theorem substBs_eq_map (es : List Nat) (v : Val) (bs : List BB) :
    substBs es v bs = bs.map (substB es v) := rfl

theorem substBs_getElem (es : List Nat) (v : Val) (bs : List BB) (i : Nat) :
    (substBs es v bs)[i]? = (bs[i]?).map (substB es v) := by
  rw [substBs_eq_map, List.getElem?_map]

theorem substB_substB (es1 es2 : List Nat) (v : Val) (b : BB)
    (hv : v.id ∉ es2) :
    substB es2 v (substB es1 v b) = substB (es1 ++ es2) v b := by
  simp only [substB]
  congr 1
  exact substL_substL es1 es2 v b.insts hv

/-- The ids the scan of one dominated block erases: the instructions there
identical to the current one. -/
def dsElims (cur : Instr) (rest : List Instr) : List Nat :=
  (rest.filter (fun I => identicalTo I cur)).map (fun I => I.id)

theorem dsElims_mem {cur : Instr} {rest : List Instr} {e : Nat}
    (h : e ∈ dsElims cur rest) :
    ∃ I, I ∈ rest ∧ identicalTo I cur = true ∧ I.id = e := by
  obtain ⟨I, hI, rfl⟩ := List.mem_map.mp h
  have hf := List.mem_filter.mp hI
  exact ⟨I, hf.1, hf.2, rfl⟩

/-- The instruction list of block `c` (empty when the index is out of
range). -/
def blkInsts (blocks : List BB) (c : Nat) : List Instr :=
  ((blocks[c]?).map (fun b => b.insts)).getD []

/-- All ids the dominated-block scan over the child list `cs` erases. -/
def dcElims (cur : Instr) (blocks : List BB) (cs : List Nat) : List Nat :=
  (cs.map (fun c => dsElims cur (blkInsts blocks c))).flatten

theorem dcElims_mem {cur : Instr} {blocks : List BB} {cs : List Nat} {e : Nat}
    (h : e ∈ dcElims cur blocks cs) :
    ∃ c, c ∈ cs ∧ ∃ I, I ∈ blkInsts blocks c ∧ identicalTo I cur = true ∧
      I.id = e := by
  obtain ⟨l, hl, hel⟩ := List.mem_flatten.mp h
  obtain ⟨c, hc, rfl⟩ := List.mem_map.mp hl
  obtain ⟨I, hI, hide, hid⟩ := dsElims_mem hel
  exact ⟨c, hc, I, hI, hide, hid⟩

theorem domChildren_nodup (cfg : List (List Nat)) (i : Nat) :
    (domChildren cfg i).Nodup :=
  (List.nodup_range _).filter _

/-- One dominated-block scan, characterised: every instruction of the block
identical to the current one is dropped and counted, every bystander list is
rewritten by the simultaneous substitution of all erased ids with the current
instruction's value, and the current instruction survives unchanged.  The
hypotheses say the erased ids are not used by the current instruction, nor
inside the scanned block itself, and differ from the current id. -/
theorem domScanGo_char (cur : Instr) (acc rest tailC done : List Instr)
    (blocks : List BB) (n : Nat) :
    (∀ I ∈ rest, identicalTo I cur = true → I.id ∉ operandIds cur) →
    (∀ I ∈ rest, identicalTo I cur = true → ∀ J ∈ rest, I.id ∉ operandIds J) →
    (∀ I ∈ rest, identicalTo I cur = true → I.id ≠ cur.id) →
    domScanGo cur acc rest tailC done blocks n =
      { cur := cur,
        kept := substL (dsElims cur rest) (valOf cur) acc
          ++ rest.filter (fun I => !identicalTo I cur),
        tailC := substL (dsElims cur rest) (valOf cur) tailC,
        done := substL (dsElims cur rest) (valOf cur) done,
        blocks := substBs (dsElims cur rest) (valOf cur) blocks,
        nPrim := n + rest.countP (fun I => identicalTo I cur) } := by
  induction cur, acc, rest, tailC, done, blocks, n using domScanGo.induct with
  | case1 cur acc tailC done blocks n =>
    intro _ _ _
    simp [domScanGo, dsElims]
  | case2 cur acc tailC done blocks n h t hc ih =>
    intro hcur hall hid
    have hmem : h ∈ h :: t := by simp
    have hcureq : rauwI h.id (valOf cur) cur = cur :=
      rauwI_noop _ _ _ (hcur h hmem hc)
    have hnoopJ : ∀ J ∈ h :: t, h.id ∉ operandIds J := hall h hmem hc
    have hrt : rauwL h.id (valOf cur) t = t :=
      map_self_of_eq _ t (fun J hJ => rauwI_noop _ _ _ (hnoopJ J (by simp [hJ])))
    rw [hcureq, hrt] at ih
    rw [domScanGo, if_pos hc, hcureq, hrt]
    rw [ih (fun I hI hm => hcur I (by simp [hI]) hm)
        (fun I hI hm J hJ => hall I (by simp [hI]) hm J (by simp [hJ]))
        (fun I hI hm => hid I (by simp [hI]) hm)]
    have hvE : (valOf cur).id ∉ dsElims cur t := by
      intro hmem2
      obtain ⟨I, hIt, hIm, hIid⟩ := dsElims_mem hmem2
      exact hid I (by simp [hIt]) hIm (by simpa [valOf] using hIid)
    have hEc : dsElims cur (h :: t) = h.id :: dsElims cur t := by
      simp [dsElims, List.filter_cons, hc]
    rw [substL_rauwL h.id _ _ hvE, substL_rauwL h.id _ _ hvE,
        substL_rauwL h.id _ _ hvE, substBs_rauwBs h.id _ _ hvE, hEc]
    simp only [List.filter_cons, hc, Bool.not_true, List.countP_cons, if_true]
    congr 1
    try omega
  | case3 cur acc tailC done blocks n h t hc ih =>
    intro hcur hall hid
    have hcf : identicalTo h cur = false := by
      revert hc
      cases identicalTo h cur <;> simp
    rw [domScanGo, if_neg hc]
    rw [ih (fun I hI hm => hcur I (by simp [hI]) hm)
        (fun I hI hm J hJ => hall I (by simp [hI]) hm J (by simp [hJ]))
        (fun I hI hm => hid I (by simp [hI]) hm)]
    have hEc : dsElims cur (h :: t) = dsElims cur t := by
      simp [dsElims, List.filter_cons, hcf]
    have hh : substI (dsElims cur t) (valOf cur) h = h := by
      apply substI_noop
      intro e he
      obtain ⟨I, hIt, hIm, hIid⟩ := dsElims_mem he
      rw [← hIid]
      exact hall I (by simp [hIt]) hIm h (by simp)
    have h1 : substL (dsElims cur t) (valOf cur) [h] = [h] := by
      simp [substL, hh]
    rw [hEc]
    congr 1
    · rw [substL_append, h1]
      simp [List.filter_cons, hcf]
    · simp [List.countP_cons, hcf]

/-- The dominated-block loop, characterised block by block.  Under the
no-aliasing hypotheses (erased ids are not used by the current instruction,
nor inside any visited child block, and differ from the current id), the
loop leaves the current instruction unchanged, rewrites the bystander lists
by the simultaneous substitution of every erased id, counts one elimination
per identical instruction per visited block, filters the identical
instructions out of exactly the visited blocks, and only rewrites uses in
the others. -/
theorem domChildrenGo_char (cur : Instr) (cs : List Nat)
    (tailC done : List Instr) (blocks : List BB) (n : Nat) :
    cs.Nodup →
    (∀ c ∈ cs, ∀ I ∈ blkInsts blocks c, identicalTo I cur = true →
      I.id ∉ operandIds cur) →
    (∀ c ∈ cs, ∀ I ∈ blkInsts blocks c, identicalTo I cur = true →
      ∀ c' ∈ cs, ∀ J ∈ blkInsts blocks c', I.id ∉ operandIds J) →
    (∀ c ∈ cs, ∀ I ∈ blkInsts blocks c, identicalTo I cur = true →
      I.id ≠ cur.id) →
    ((domChildrenGo cur cs tailC done blocks n).cur = cur ∧
     (domChildrenGo cur cs tailC done blocks n).tailC =
       substL (dcElims cur blocks cs) (valOf cur) tailC ∧
     (domChildrenGo cur cs tailC done blocks n).done =
       substL (dcElims cur blocks cs) (valOf cur) done ∧
     (domChildrenGo cur cs tailC done blocks n).nPrim =
       n + (cs.map (fun c => (blkInsts blocks c).countP
         (fun I => identicalTo I cur))).sum) ∧
    (∀ c ∈ cs, (domChildrenGo cur cs tailC done blocks n).blocks[c]? =
      (blocks[c]?).map (fun b =>
        { insts := b.insts.filter (fun I => !identicalTo I cur),
          succs := b.succs })) ∧
    (∀ b', b' ∉ cs → (domChildrenGo cur cs tailC done blocks n).blocks[b']? =
      (substBs (dcElims cur blocks cs) (valOf cur) blocks)[b']?) := by
  induction cs generalizing tailC done blocks n with
  | nil =>
    intro _ _ _ _
    simp [domChildrenGo, dcElims]
  | cons c cs' ih =>
    intro hnd hcur hall hid
    have hcn : c ∉ cs' := (List.nodup_cons.mp hnd).1
    have hnd' : cs'.Nodup := (List.nodup_cons.mp hnd).2
    cases hsome : blocks[c]? with
    | none =>
      have hbi : blkInsts blocks c = [] := by simp [blkInsts, hsome]
      have hE : dcElims cur blocks (c :: cs') = dcElims cur blocks cs' := by
        simp [dcElims, hbi, dsElims]
      obtain ⟨⟨i1, i2, i3, i4⟩, i5, i6⟩ :=
        ih tailC done blocks n hnd'
          (fun c0 h0 => hcur c0 (by simp [h0]))
          (fun c0 h0 I hI hm c1 h1 =>
            hall c0 (by simp [h0]) I hI hm c1 (by simp [h1]))
          (fun c0 h0 => hid c0 (by simp [h0]))
      have hstep : domChildrenGo cur (c :: cs') tailC done blocks n =
          domChildrenGo cur cs' tailC done blocks n := by
        rw [domChildrenGo]
        simp only [hsome]
      refine ⟨⟨?_, ?_, ?_, ?_⟩, ?_, ?_⟩
      · rw [hstep]; exact i1
      · rw [hstep, i2, hE]
      · rw [hstep, i3, hE]
      · rw [hstep, i4]; simp [hbi]
      · intro c0 hc0
        rcases List.mem_cons.mp hc0 with rfl | h0
        · rw [hstep, i6 c0 hcn, substBs_getElem, hsome]; rfl
        · rw [hstep]; exact i5 c0 h0
      · intro b' hb'
        rw [hstep, i6 b' (fun hx => hb' (by simp [hx])), hE]
    | some b =>
      have hbi : blkInsts blocks c = b.insts := by simp [blkInsts, hsome]
      have hclt : c < blocks.length := (List.getElem?_eq_some_iff.mp hsome).1
      have h1 : ∀ I ∈ b.insts, identicalTo I cur = true →
          I.id ∉ operandIds cur :=
        fun I hI hm => hcur c (by simp) I (by rw [hbi]; exact hI) hm
      have h2 : ∀ I ∈ b.insts, identicalTo I cur = true →
          ∀ J ∈ b.insts, I.id ∉ operandIds J :=
        fun I hI hm J hJ => hall c (by simp) I (by rw [hbi]; exact hI) hm
          c (by simp) J (by rw [hbi]; exact hJ)
      have h3 : ∀ I ∈ b.insts, identicalTo I cur = true → I.id ≠ cur.id :=
        fun I hI hm => hid c (by simp) I (by rw [hbi]; exact hI) hm
      have hS : domScanGo cur [] b.insts tailC done blocks n =
          { cur := cur,
            kept := b.insts.filter (fun I => !identicalTo I cur),
            tailC := substL (dsElims cur b.insts) (valOf cur) tailC,
            done := substL (dsElims cur b.insts) (valOf cur) done,
            blocks := substBs (dsElims cur b.insts) (valOf cur) blocks,
            nPrim := n + b.insts.countP (fun I => identicalTo I cur) } := by
        rw [domScanGo_char cur [] b.insts tailC done blocks n h1 h2 h3]
        simp [substL]
      have hstep : domChildrenGo cur (c :: cs') tailC done blocks n =
          domChildrenGo cur cs'
            (substL (dsElims cur b.insts) (valOf cur) tailC)
            (substL (dsElims cur b.insts) (valOf cur) done)
            ((substBs (dsElims cur b.insts) (valOf cur) blocks).set c
              { insts := b.insts.filter (fun I => !identicalTo I cur),
                succs := b.succs })
            (n + b.insts.countP (fun I => identicalTo I cur)) := by
        rw [domChildrenGo]
        simp only [hsome, hS]
      have hget_ne : ∀ b0 : Nat, b0 ≠ c →
          (((substBs (dsElims cur b.insts) (valOf cur) blocks).set c
            { insts := b.insts.filter (fun I => !identicalTo I cur),
              succs := b.succs })[b0]?) =
          (blocks[b0]?).map (substB (dsElims cur b.insts) (valOf cur)) := by
        intro b0 hb0
        rw [List.getElem?_set_ne (fun he => hb0 he.symm), substBs_getElem]
      have hget_c :
          (((substBs (dsElims cur b.insts) (valOf cur) blocks).set c
            { insts := b.insts.filter (fun I => !identicalTo I cur),
              succs := b.succs })[c]?) =
          some { insts := b.insts.filter (fun I => !identicalTo I cur),
                 succs := b.succs } := by
        apply List.getElem?_set_eq
        simpa [substBs] using hclt
      have hblk' : ∀ c' ∈ cs',
          blkInsts ((substBs (dsElims cur b.insts) (valOf cur) blocks).set c
            { insts := b.insts.filter (fun I => !identicalTo I cur),
              succs := b.succs }) c' = blkInsts blocks c' := by
        intro c' hc'
        have hne : c' ≠ c := fun he => hcn (he ▸ hc')
        unfold blkInsts
        rw [hget_ne c' hne]
        cases hbb : blocks[c']? with
        | none => rfl
        | some b2 =>
          simp only [Option.map_some', Option.getD_some, substB]
          apply substL_noop
          intro I hI e he
          obtain ⟨I0, hI0, hm0, hid0⟩ := dsElims_mem he
          rw [← hid0]
          exact hall c (by simp) I0 (by rw [hbi]; exact hI0) hm0
            c' (by simp [hc']) I (by simpa [blkInsts, hbb] using hI)
      have hcur' : ∀ c' ∈ cs',
          ∀ I ∈ blkInsts ((substBs (dsElims cur b.insts) (valOf cur)
              blocks).set c
            { insts := b.insts.filter (fun I => !identicalTo I cur),
              succs := b.succs }) c',
          identicalTo I cur = true → I.id ∉ operandIds cur := by
        intro c' hc' I hI hm
        rw [hblk' c' hc'] at hI
        exact hcur c' (by simp [hc']) I hI hm
      have hall' : ∀ c' ∈ cs',
          ∀ I ∈ blkInsts ((substBs (dsElims cur b.insts) (valOf cur)
              blocks).set c
            { insts := b.insts.filter (fun I => !identicalTo I cur),
              succs := b.succs }) c',
          identicalTo I cur = true → ∀ c1 ∈ cs',
          ∀ J ∈ blkInsts ((substBs (dsElims cur b.insts) (valOf cur)
              blocks).set c
            { insts := b.insts.filter (fun I => !identicalTo I cur),
              succs := b.succs }) c1,
          I.id ∉ operandIds J := by
        intro c' hc' I hI hm c1 hc1 J hJ
        rw [hblk' c' hc'] at hI
        rw [hblk' c1 hc1] at hJ
        exact hall c' (by simp [hc']) I hI hm c1 (by simp [hc1]) J hJ
      have hid' : ∀ c' ∈ cs',
          ∀ I ∈ blkInsts ((substBs (dsElims cur b.insts) (valOf cur)
              blocks).set c
            { insts := b.insts.filter (fun I => !identicalTo I cur),
              succs := b.succs }) c',
          identicalTo I cur = true → I.id ≠ cur.id := by
        intro c' hc' I hI hm
        rw [hblk' c' hc'] at hI
        exact hid c' (by simp [hc']) I hI hm
      obtain ⟨⟨i1, i2, i3, i4⟩, i5, i6⟩ :=
        ih (substL (dsElims cur b.insts) (valOf cur) tailC)
          (substL (dsElims cur b.insts) (valOf cur) done)
          ((substBs (dsElims cur b.insts) (valOf cur) blocks).set c
            { insts := b.insts.filter (fun I => !identicalTo I cur),
              succs := b.succs })
          (n + b.insts.countP (fun I => identicalTo I cur))
          hnd' hcur' hall' hid'
      have hE2 : dcElims cur
          ((substBs (dsElims cur b.insts) (valOf cur) blocks).set c
            { insts := b.insts.filter (fun I => !identicalTo I cur),
              succs := b.succs }) cs' = dcElims cur blocks cs' := by
        unfold dcElims
        congr 1
        apply List.map_congr_left
        intro c' hc'
        rw [hblk' c' hc']
      have hEc : dcElims cur blocks (c :: cs') =
          dsElims cur b.insts ++ dcElims cur blocks cs' := by
        simp [dcElims, hbi]
      have hvE2 : (valOf cur).id ∉ dcElims cur blocks cs' := by
        intro hmem
        obtain ⟨c', hc', I, hI, hm, hidI⟩ := dcElims_mem hmem
        exact hid c' (by simp [hc']) I hI hm (by simpa [valOf] using hidI)
      refine ⟨⟨?_, ?_, ?_, ?_⟩, ?_, ?_⟩
      · rw [hstep]; exact i1
      · rw [hstep, i2, hE2, substL_substL _ _ _ _ hvE2, hEc]
      · rw [hstep, i3, hE2, substL_substL _ _ _ _ hvE2, hEc]
      · rw [hstep, i4]
        have hsum : (cs'.map (fun c' =>
            (blkInsts ((substBs (dsElims cur b.insts) (valOf cur)
              blocks).set c
              { insts := b.insts.filter (fun I => !identicalTo I cur),
                succs := b.succs }) c').countP
            (fun I => identicalTo I cur))).sum =
            (cs'.map (fun c' => (blkInsts blocks c').countP
            (fun I => identicalTo I cur))).sum := by
          congr 1
          apply List.map_congr_left
          intro c' hc'
          rw [hblk' c' hc']
        rw [hsum]
        simp only [List.map_cons, List.sum_cons, hbi]
        omega
      · intro c0 hc0
        rcases List.mem_cons.mp hc0 with rfl | h0
        · rw [hstep, i6 c0 hcn, hE2, substBs_getElem, hget_c, hsome]
          simp only [Option.map_some']
          have hnoop : substL (dcElims cur blocks cs') (valOf cur)
              (b.insts.filter (fun I => !identicalTo I cur)) =
              b.insts.filter (fun I => !identicalTo I cur) := by
            apply substL_noop
            intro I hI e he
            obtain ⟨c', hc', I0, hI0, hm0, hid0⟩ := dcElims_mem he
            rw [← hid0]
            exact hall c' (by simp [hc']) I0 hI0 hm0 c0 (by simp)
              I (by rw [hbi]; exact List.mem_of_mem_filter hI)
          simp [substB, hnoop]
        · rw [hstep, i5 c0 h0, hget_ne c0 (fun he => hcn (he ▸ h0))]
          cases hbb : blocks[c0]? with
          | none => rfl
          | some b2 =>
            simp only [Option.map_some']
            have hnoop : substL (dsElims cur b.insts) (valOf cur) b2.insts =
                b2.insts := by
              apply substL_noop
              intro I hI e he
              obtain ⟨I0, hI0, hm0, hid0⟩ := dsElims_mem he
              rw [← hid0]
              exact hall c (by simp) I0 (by rw [hbi]; exact hI0) hm0
                c0 (by simp [h0]) I (by simpa [blkInsts, hbb] using hI)
            simp [substB, hnoop]
      · intro b' hb'
        have hbc : b' ≠ c := fun he => hb' (by simp [he])
        have hbcs' : b' ∉ cs' := fun he => hb' (by simp [he])
        rw [hstep, i6 b' hbcs', hE2]
        simp only [substBs_getElem]
        rw [hget_ne b' hbc, hEc]
        cases hbb : blocks[b']? with
        | none => rfl
        | some b2 =>
          simp only [Option.map_some']
          congr 1
          exact substB_substB _ _ _ _ hvE2

/-- **C3.**  Rule R3's dominated-block scan visits exactly the blocks
immediately dominated by the current block — the children of its node in a
freshly computed dominator tree, one level only, not the full dominated
subtree.  Under the no-aliasing hypotheses, every instruction identical to
the current one inside a visited child block is erased (the child block
keeps exactly its non-identical instructions), one elimination is counted
per erasure (the driver adds this count to `CSEElim`), and the erased
instructions' uses everywhere are redirected to the current instruction by
the simultaneous substitution; every non-child block — in particular every
deeper descendant of the dominated subtree — keeps all its instructions and
only has uses rewritten. -/
theorem c3_dominated_scan (cfg : List (List Nat)) (bi : Nat) (cur : Instr)
    (tailC done : List Instr) (blocks : List BB) (n : Nat)
    (hcur : ∀ c ∈ domChildren cfg bi, ∀ I ∈ blkInsts blocks c,
      identicalTo I cur = true → I.id ∉ operandIds cur)
    (hall : ∀ c ∈ domChildren cfg bi, ∀ I ∈ blkInsts blocks c,
      identicalTo I cur = true → ∀ c' ∈ domChildren cfg bi,
      ∀ J ∈ blkInsts blocks c', I.id ∉ operandIds J)
    (hid : ∀ c ∈ domChildren cfg bi, ∀ I ∈ blkInsts blocks c,
      identicalTo I cur = true → I.id ≠ cur.id) :
    ((domChildrenGo cur (domChildren cfg bi) tailC done blocks n).cur = cur ∧
     (domChildrenGo cur (domChildren cfg bi) tailC done blocks n).tailC =
       substL (dcElims cur blocks (domChildren cfg bi)) (valOf cur) tailC ∧
     (domChildrenGo cur (domChildren cfg bi) tailC done blocks n).done =
       substL (dcElims cur blocks (domChildren cfg bi)) (valOf cur) done ∧
     (domChildrenGo cur (domChildren cfg bi) tailC done blocks n).nPrim =
       n + ((domChildren cfg bi).map (fun c => (blkInsts blocks c).countP
         (fun I => identicalTo I cur))).sum) ∧
    (∀ c ∈ domChildren cfg bi,
      (domChildrenGo cur (domChildren cfg bi) tailC done blocks n).blocks[c]? =
      (blocks[c]?).map (fun b =>
        { insts := b.insts.filter (fun I => !identicalTo I cur),
          succs := b.succs })) ∧
    (∀ b', b' ∉ domChildren cfg bi →
      (domChildrenGo cur (domChildren cfg bi) tailC done blocks n).blocks[b']? =
      (substBs (dcElims cur blocks (domChildren cfg bi)) (valOf cur)
        blocks)[b']?) :=
  domChildrenGo_char cur (domChildren cfg bi) tailC done blocks n
    (domChildren_nodup cfg bi) hcur hall hid

/-- Witness inputs for C3: a three-block chain CFG (0 → 1 → 2), so block 1
is the only dominator-tree child of block 0 while block 2 is a deeper
descendant.  The cursor is an add in block 0; block 1 holds an identical
add (erased) and a sub (kept); block 2 holds an identical add (it survives:
the scan goes one level only) and a user of the erased add (redirected);
the cursor block's tail also uses the erased add. -/
def c3cfg : List (List Nat) := [[1], [2], []]

def c3cur : Instr := ⟨1, .Add, 1, [⟨5, 1⟩, ⟨6, 1⟩], false, 0⟩

def c3blocks : List BB :=
  [⟨[], [1]⟩,
   ⟨[⟨2, .Add, 1, [⟨5, 1⟩, ⟨6, 1⟩], false, 0⟩,
     ⟨9, .Sub, 1, [⟨5, 1⟩, ⟨6, 1⟩], false, 0⟩], [2]⟩,
   ⟨[⟨4, .Add, 1, [⟨5, 1⟩, ⟨6, 1⟩], false, 0⟩,
     ⟨7, .Mul, 1, [⟨2, 1⟩, ⟨2, 1⟩], false, 0⟩], []⟩]

def c3tail : List Instr := [⟨8, .Mul, 1, [⟨2, 1⟩, ⟨2, 1⟩], false, 0⟩]

/-- Witness for C3 at the concrete inputs above. -/
theorem c3_dominated_scan_witness :
    ((∀ c ∈ domChildren c3cfg 0, ∀ I ∈ blkInsts c3blocks c,
        identicalTo I c3cur = true → I.id ∉ operandIds c3cur) ∧
     (∀ c ∈ domChildren c3cfg 0, ∀ I ∈ blkInsts c3blocks c,
        identicalTo I c3cur = true → ∀ c' ∈ domChildren c3cfg 0,
        ∀ J ∈ blkInsts c3blocks c', I.id ∉ operandIds J) ∧
     (∀ c ∈ domChildren c3cfg 0, ∀ I ∈ blkInsts c3blocks c,
        identicalTo I c3cur = true → I.id ≠ c3cur.id)) ∧
    (((domChildrenGo c3cur (domChildren c3cfg 0) c3tail [] c3blocks 0).cur =
        c3cur ∧
      (domChildrenGo c3cur (domChildren c3cfg 0) c3tail [] c3blocks 0).tailC =
        substL (dcElims c3cur c3blocks (domChildren c3cfg 0)) (valOf c3cur)
          c3tail ∧
      (domChildrenGo c3cur (domChildren c3cfg 0) c3tail [] c3blocks 0).done =
        substL (dcElims c3cur c3blocks (domChildren c3cfg 0)) (valOf c3cur)
          [] ∧
      (domChildrenGo c3cur (domChildren c3cfg 0) c3tail [] c3blocks 0).nPrim =
        0 + ((domChildren c3cfg 0).map (fun c => (blkInsts c3blocks c).countP
          (fun I => identicalTo I c3cur))).sum) ∧
     (∀ c ∈ domChildren c3cfg 0,
       (domChildrenGo c3cur (domChildren c3cfg 0) c3tail []
         c3blocks 0).blocks[c]? =
       (c3blocks[c]?).map (fun b =>
         { insts := b.insts.filter (fun I => !identicalTo I c3cur),
           succs := b.succs })) ∧
     (∀ b', b' ∉ domChildren c3cfg 0 →
       (domChildrenGo c3cur (domChildren c3cfg 0) c3tail []
         c3blocks 0).blocks[b']? =
       (substBs (dcElims c3cur c3blocks (domChildren c3cfg 0)) (valOf c3cur)
         c3blocks)[b']?)) :=
  ⟨⟨by decide, by decide, by decide⟩,
   c3_dominated_scan c3cfg 0 c3cur c3tail [] c3blocks 0
     (by decide) (by decide) (by decide)⟩

end P2
